import Mathlib

/-!
Verification of a character-level Markov model program (`markov_model.py`).

The program builds two interchangeable representations of k-gram →
next-symbol frequency statistics over a text corpus:

* `MarkovModelTree`: a prefix tree of depth k+1 built from all cyclic
  (k+1)-windows of the corpus (embedded here as `Node` / `treeBuild`);
* `MarkovModelTables`: a mapping from each observed k-gram to its total
  count and a dense 128-entry successor-count array (embedded as
  `Tables` / `tablesBuild`);

and a generation loop that synthesizes a trajectory by repeated weighted
sampling (`genLoop` / `runMain`).

Characters are embedded as natural-number code points (`ord`).  Python
dictionaries (which preserve insertion order) are embedded as
insertion-ordered association lists.  Fallible Python code (KeyError,
IndexError, AttributeError on `None`) is embedded with `Option`.  The
weighted random sampler `stdrandom.discrete` is embedded as an oracle
parameter `pick : List Nat → Nat` choosing an index into the weight list.
-/

set_option maxRecDepth 100000

/-- Python slice-based cyclic window extraction, common to both model
constructors:
`right_idx = left_idx + len; text[left_idx:right_idx]` when
`right_idx < len(text)`, else
`text[left_idx:len(text)] + text[:right_idx % len(text)]`. -/
def pyWindow (text : List Nat) (len i : Nat) : List Nat :=
  let n := text.length
  let r := i + len
  if r < n then (text.drop i).take len
  else text.drop i ++ text.take (r % n)

/-- The character of `text` at cyclic position `j` (i.e. `text[j % len(text)]`). -/
def cyclAt (text : List Nat) (j : Nat) : Nat :=
  text.getD (j % text.length) 0

/-- Specification form of the cyclic window: the characters at cyclic
positions `i, i+1, …, i+len-1`.  Proved equal to `pyWindow` for in-range
starts (`pyWindow_eq_cyclWindow`). -/
def cyclWindow (text : List Nat) (len i : Nat) : List Nat :=
  (List.range len).map (fun j => cyclAt text (i + j))

/-- `Node` of the prefix tree.  A node holds, in insertion order, one entry
per child: (letter, occurrence count, child node).  This combines the
Python `_neighbours` and `_letters_count` dictionaries, which always hold
exactly the same keys in the same insertion order. -/
inductive Node where
  | mk : List (Nat × Nat × Node) → Node

/-- The entry list of a node. -/
def Node.entries : Node → List (Nat × Nat × Node)
  | .mk es => es

/-- Find the (count, child) entry for a letter, first match
(Python dict lookup). -/
def findEntry (c : Nat) (es : List (Nat × Nat × Node)) : Option (Nat × Node) :=
  (es.find? (fun e => e.1 == c)).map (fun e => e.2)

/-- Replace the first entry for letter `c` by `(c, cnt, child)`
(Python dict update for an existing key). -/
def replaceEntry (c cnt : Nat) (child : Node) :
    List (Nat × Nat × Node) → List (Nat × Nat × Node)
  | [] => []
  | e :: es => if e.1 == c then (c, cnt, child) :: es else e :: replaceEntry c cnt child es

/-- Walking a whole window into the trie: `node = root; for ch in k_gram:
node = node.add_son(ch)`.  `add_son` creates a missing child with count 0
and then increments the count, so an existing child gets `cnt + 1` and a
new child gets count 1 (appended at the end, matching dict insertion
order). -/
def insertWord : List Nat → Node → Node
  | [], nd => nd
  | c :: rest, Node.mk es =>
    match findEntry c es with
    | some (cnt, child) => Node.mk (replaceEntry c (cnt + 1) (insertWord rest child) es)
    | none => Node.mk (es ++ [(c, 1, insertWord rest (Node.mk []))])

/-- `Node.get_son`: the child for a letter, `None` (here `none`) if absent. -/
def getSon (nd : Node) (c : Nat) : Option Node :=
  (findEntry c nd.entries).map (fun e => e.2)

/-- `Node.get_letter_count`: the count for a letter, defaulting to 0 when
the letter is absent. -/
def getLetterCount (nd : Node) (c : Nat) : Nat :=
  match findEntry c nd.entries with
  | some e => e.1
  | none => 0

/-- `Node.get_letters_count`: the (letter, count) pairs in insertion order. -/
def lettersCountList (nd : Node) : List (Nat × Nat) :=
  nd.entries.map (fun e => (e.1, e.2.1))

/-- Walk a sequence of edges from a node; `none` as soon as an edge is
absent (in Python: `get_son` returns `None` and the next attribute access
raises). -/
def walk : Node → List Nat → Option Node
  | nd, [] => some nd
  | nd, c :: rest => (getSon nd c).bind (fun m => walk m rest)

/-- `MarkovModelTree.__init__`: insert every cyclic (k+1)-window of the
corpus into the trie (the constructor rebinds `k = k+1` before the loop). -/
def treeBuild (text : List Nat) (k : Nat) : Node :=
  (List.range text.length).foldl
    (fun nd i => insertWord (pyWindow text (k + 1) i) nd) (Node.mk [])

/-- `MarkovModelTree.k_freq`: walk the first `len(k_gram) - 1` symbols,
then read `get_letter_count` of the last symbol there (which defaults to
0 when only the last edge is absent).  `none` models the exception raised
when the prefix walk hits an absent edge, or when the k-gram is empty
(`k_gram[-1]` raises IndexError). -/
def treeKFreq (root : Node) (g : List Nat) : Option Nat :=
  match g.getLast? with
  | none => none
  | some last => (walk root g.dropLast).map (fun nd => getLetterCount nd last)

/-- `MarkovModelTree.k_follow_freq`: walk all `k` symbols of the k-gram,
then read `get_letter_count` of the follow symbol (0 when absent). -/
def treeKFollowFreq (root : Node) (g : List Nat) (s : Nat) : Option Nat :=
  (walk root g).map (fun nd => getLetterCount nd s)

/-- `MarkovModelTree.next_char`: walk the k-gram, sample an index into the
children's count list via `stdrandom.discrete` (the oracle `pick`), and
return the letter at that index.  `none` models a failed walk, an empty
weight list, or an out-of-contract sampler index. -/
def treeNextChar (root : Node) (pick : List Nat → Nat) (g : List Nat) : Option Nat :=
  (walk root g).bind (fun nd =>
    let lcs := lettersCountList nd
    (lcs.get? (pick (lcs.map (fun e => e.2)))).map (fun e => e.1))

/-- `MarkovModelTables` state: the `_k_gram_count` and `_k_gram_letter`
dictionaries, as insertion-ordered association lists. -/
structure Tables where
  kGramCount : List (List Nat × Nat)
  kGramLetter : List (List Nat × List Nat)
  deriving DecidableEq

/-- Dictionary lookup on an association list keyed by k-gram (first match). -/
def findVal {α : Type} (m : List (List Nat × α)) (g : List Nat) : Option α :=
  (m.find? (fun e => e.1 == g)).map (fun e => e.2)

/-- Dictionary update of an existing key (first match). -/
def replaceVal {α : Type} : List (List Nat × α) → List Nat → α → List (List Nat × α)
  | [], _, _ => []
  | e :: es, g, v => if e.1 == g then (e.1, v) :: es else e :: replaceVal es g v

/-- One iteration of the `MarkovModelTables.__init__` loop at start index
`i`: extract the cyclic k-window and its successor character, create the
count and 128-entry letter-array entries if absent, then increment both.
`none` models the IndexError raised by `[ord(successor)] += 1` when the
successor code point is ≥ 128. -/
def tablesStep (text : List Nat) (k : Nat) (t : Tables) (i : Nat) : Option Tables :=
  let g := pyWindow text k i
  let c := text.getD ((i + k) % text.length) 0
  let counts := match findVal t.kGramCount g with
    | some v => replaceVal t.kGramCount g (v + 1)
    | none => t.kGramCount ++ [(g, 1)]
  let letters := match findVal t.kGramLetter g with
    | some _ => t.kGramLetter
    | none => t.kGramLetter ++ [(g, List.replicate 128 0)]
  let arr := (findVal letters g).getD (List.replicate 128 0)
  if c < arr.length then
    some ⟨counts, replaceVal letters g (arr.set c (arr.getD c 0 + 1))⟩
  else none

/-- The `MarkovModelTables.__init__` loop over a list of start indices. -/
def tablesBuildAux (text : List Nat) (k : Nat) : List Nat → Tables → Option Tables
  | [], t => some t
  | i :: is, t =>
    match tablesStep text k t i with
    | none => none
    | some t2 => tablesBuildAux text k is t2

/-- `MarkovModelTables.__init__`: the loop over all start positions. -/
def tablesBuild (text : List Nat) (k : Nat) : Option Tables :=
  tablesBuildAux text k (List.range text.length) ⟨[], []⟩

/-- `MarkovModelTables.k_freq`: direct dictionary lookup; `none` models the
KeyError on an absent k-gram. -/
def tablesKFreq (t : Tables) (g : List Nat) : Option Nat :=
  findVal t.kGramCount g

/-- `MarkovModelTables.k_follow_freq`: dictionary lookup then array index;
`none` models KeyError on an absent k-gram or IndexError for a code
point ≥ 128. -/
def tablesKFollowFreq (t : Tables) (g : List Nat) (s : Nat) : Option Nat :=
  (findVal t.kGramLetter g).bind (fun arr => arr.get? s)

/-- The trajectory loop of `__main__`: `for _ in range(t - k): c =
mm.next_char(state); state = state[1:] + c; tj += c`.  `none` models an
exception escaping from `next_char`. -/
def genLoop (root : Node) (pick : List Nat → Nat) :
    Nat → List Nat → List Nat → Option (List Nat)
  | 0, _, tj => some tj
  | m + 1, state, tj =>
    match treeNextChar root pick state with
    | none => none
    | some c => genLoop root pick m (state.drop 1 ++ [c]) (tj ++ [c])

/-- The `__main__` flow after argument parsing: build the tree model and
the table model (a failing table build aborts the run), seed the state
with the first `order` characters, and run the trajectory loop
`trajectory - order` times (Python `range` of a non-positive number is
empty, matching truncated subtraction).  Returns the printed trajectory. -/
def runMain (txt : List Nat) (order traj : Nat) (pick : List Nat → Nat) :
    Option (List Nat) :=
  match tablesBuild txt order with
  | none => none
  | some _ =>
    genLoop (treeBuild txt order) pick (traj - order) (txt.take order) (txt.take order)

/-- Decimal digit characters of a count, as code points (`str(v)` in the
f-strings of `to_string`). -/
def digitsRev : Nat → Nat → List Nat
  | 0, _ => []
  | _, 0 => []
  | fuel + 1, n => n % 10 :: digitsRev fuel (n / 10)

/-- Code points of the decimal representation of `n`. -/
def natDigits (n : Nat) : List Nat :=
  if n = 0 then [48] else ((digitsRev n n).map (fun d => d + 48)).reverse

/-- Python `sep.join(pieces)`: the pieces concatenated with `sep` between
consecutive pieces. -/
def joinSep (sep : List Nat) : List (List Nat) → List Nat
  | [] => []
  | [x] => x
  | x :: xs => x ++ sep ++ joinSep sep xs

/-- One line of `MarkovModelTree._stringify` at level 0 (without the
trailing newline): `f"{path}: {' '.join([f'{k} {v}' for k, v in
node.get_letters_count().items()])}"`. -/
def lineFor (path : List Nat) (lcs : List (Nat × Nat)) : List Nat :=
  path ++ [58, 32] ++ joinSep [32] (lcs.map (fun e => [e.1, 32] ++ natDigits e.2))

/-- `MarkovModelTree._stringify`: depth-first traversal to depth `level`,
producing one line per visited depth-`level` node, in child insertion
order.  Lines are returned without their trailing newline. -/
def stringifyLines : Nat → Node → List Nat → List (List Nat)
  | 0, nd, path => [lineFor path (lettersCountList nd)]
  | l + 1, nd, path =>
    nd.entries.flatMap (fun e => stringifyLines l e.2.2 (path ++ [e.1]))

/-- The accumulated `StringContainer` content of `to_string`: every
`_stringify` line followed by a newline (code 10), concatenated. -/
def treeStringRaw (k : Nat) (root : Node) : List Nat :=
  ((stringifyLines k root []).map (fun l => l ++ [10])).flatten

/-- Python `str.split("\n")`: split on every newline, keeping empty
pieces (including a trailing empty piece). -/
def splitNl : List Nat → List (List Nat)
  | [] => [[]]
  | c :: rest =>
    let r := splitNl rest
    if c = 10 then [] :: r
    else
      match r with
      | [] => [[c]]
      | h :: t => (c :: h) :: t

/-- Python string comparison `<=`: lexicographic on code points. -/
def lexLe : List Nat → List Nat → Bool
  | [], _ => true
  | _ :: _, [] => false
  | a :: as, b :: bs => if a < b then true else if b < a then false else lexLe as bs

/-- The lines of `MarkovModelTree.to_string`, after `sorted(...)` (Python
`sorted` orders the pieces of the split lexicographically). -/
def treeToStringLines (k : Nat) (root : Node) : List (List Nat) :=
  List.insertionSort (fun a b => lexLe a b = true) (splitNl (treeStringRaw k root))

/-- `MarkovModelTree.to_string`: `"\n".join(sorted(result.string.split("\n")))`. -/
def treeToString (k : Nat) (root : Node) : List Nat :=
  joinSep [10] (treeToStringLines k root)

/-- Number of occurrences of `g` as a cyclic k-window of the corpus. -/
def kgramFreq (text : List Nat) (k : Nat) (g : List Nat) : Nat :=
  (List.range text.length).countP (fun i => cyclWindow text k i == g)

/-- Number of positions where the cyclic k-window is `g` and the next
cyclic character is `s`. -/
def kgramFollowFreq (text : List Nat) (k : Nat) (g : List Nat) (s : Nat) : Nat :=
  (List.range text.length).countP
    (fun i => cyclWindow text k i == g && cyclAt text (i + k) == s)

/-- Whether `g` occurs as a cyclic k-window of the corpus. -/
def observedB (text : List Nat) (k : Nat) (g : List Nat) : Bool :=
  (List.range text.length).any (fun i => cyclWindow text k i == g)

/-- The count stored at path `p` for letter `c`: walk `p`, then read the
letter count (0 whenever the walk fails). -/
def countAt : Node → List Nat → Nat → Nat
  | nd, [], c => getLetterCount nd c
  | nd, a :: p, c =>
    match getSon nd a with
    | none => 0
    | some m => countAt m p c

/-- Folding a list of window insertions into a trie. -/
def buildFrom (ws : List (List Nat)) (nd : Node) : Node :=
  ws.foldl (fun acc w => insertWord w acc) nd

/-- The list of all cyclic windows of a given length, in build order. -/
def windows (text : List Nat) (len : Nat) : List (List Nat) :=
  (List.range text.length).map (pyWindow text len)

/-- Invariant of the table-model build: `F g` is the number of processed
windows equal to `g`, and `G g c` the number of processed windows equal to
`g` whose successor character is `c`.  The count dictionary holds exactly
the k-grams with `F g ≠ 0` (with value `F g`), and the letter dictionary
holds, for the same k-grams, a 128-entry array whose entry `c` is `G g c`. -/
def TablesInv (F : List Nat → Nat) (G : List Nat → Nat → Nat) (t : Tables) : Prop :=
  ∀ g, (findVal t.kGramCount g = if F g = 0 then none else some (F g)) ∧
    (match findVal t.kGramLetter g with
     | none => F g = 0 ∧ ∀ c, G g c = 0
     | some arr => arr.length = 128 ∧ ∀ c, arr.getD c 0 = G g c)

theorem cyclWindow_length (text : List Nat) (len i : Nat) :
    (cyclWindow text len i).length = len := by
  simp [cyclWindow]

theorem cyclWindow_getElem (text : List Nat) (len i j : Nat) (hj : j < len)
    (h2 : j < (cyclWindow text len i).length) :
    (cyclWindow text len i)[j] = cyclAt text (i + j) := by
  simp [cyclWindow]

theorem pyWindow_eq_cyclWindow (text : List Nat) (len i : Nat)
    (hi : i < text.length) (hlen : len ≤ text.length) :
    pyWindow text len i = cyclWindow text len i := by
  have hn : 0 < text.length := Nat.lt_of_le_of_lt (Nat.zero_le i) hi
  by_cases hr : i + len < text.length
  · apply List.ext_getElem
    · simp [pyWindow, hr, cyclWindow]
      omega
    · intro j h1 h2
      have hj : j < len := by
        simpa [cyclWindow_length] using h2
      have hij : i + j < text.length := by omega
      rw [cyclWindow_getElem text len i j hj h2]
      simp [pyWindow, hr, cyclAt, Nat.mod_eq_of_lt hij,
        List.getElem?_eq_getElem hij]
  · have hmod : (i + len) % text.length = i + len - text.length := by
      have h2n : i + len < 2 * text.length := by omega
      rw [Nat.mod_eq_sub_mod (by omega)]
      exact Nat.mod_eq_of_lt (by omega)
    apply List.ext_getElem
    · simp [pyWindow, hr, cyclWindow, hmod]
      omega
    · intro j h1 h2
      have hj : j < len := by
        simpa [cyclWindow_length] using h2
      rw [cyclWindow_getElem text len i j hj h2]
      simp only [pyWindow, if_neg hr, hmod]
      by_cases hcase : j < text.length - i
      · have hij : i + j < text.length := by omega
        rw [List.getElem_append_left (by simpa using hcase)]
        simp [cyclAt, Nat.mod_eq_of_lt hij, List.getElem?_eq_getElem hij]
      · have hge : text.length - i ≤ j := by omega
        have hlt2 : i + j < 2 * text.length := by omega
        have hmod2 : (i + j) % text.length = i + j - text.length := by
          rw [Nat.mod_eq_sub_mod (by omega)]
          exact Nat.mod_eq_of_lt (by omega)
        have hidx : i + j - text.length < text.length := by omega
        rw [List.getElem_append_right (by simpa using hge)]
        simp only [cyclAt, hmod2, List.getD_eq_getElem?_getD,
          List.getElem?_eq_getElem hidx, Option.getD_some, List.getElem_take,
          List.length_drop]
        congr 1
        omega

theorem cyclWindow_succ (text : List Nat) (len i : Nat) :
    cyclWindow text (len + 1) i = cyclWindow text len i ++ [cyclAt text (i + len)] := by
  simp [cyclWindow, List.range_succ]

theorem cyclWindow_mod (text : List Nat) (len a : Nat) :
    cyclWindow text len (a % text.length) = cyclWindow text len a := by
  simp [cyclWindow, cyclAt, Nat.mod_add_mod]

theorem cyclWindow_shift (text : List Nat) (len i : Nat) :
    (cyclWindow text (len + 1) i).drop 1 = cyclWindow text len (i + 1) := by
  simp only [cyclWindow, List.range_succ_eq_map, List.map_cons, List.drop_succ_cons,
    List.drop_zero, List.map_map]
  congr 1
  funext j
  simp [Function.comp]
  congr 1
  omega

theorem take_eq_cyclWindow (text : List Nat) (k : Nat) (hk : k ≤ text.length) :
    text.take k = cyclWindow text k 0 := by
  apply List.ext_getElem
  · simp [cyclWindow_length]
    omega
  · intro j h1 h2
    have hj : j < k := by simpa [cyclWindow_length] using h2
    have hjn : j < text.length := by omega
    rw [cyclWindow_getElem text k 0 j hj h2]
    simp [cyclAt, Nat.mod_eq_of_lt hjn, List.getElem?_eq_getElem hjn]

theorem observedB_iff (text : List Nat) (k : Nat) (g : List Nat) :
    observedB text k g = true ↔ ∃ i < text.length, cyclWindow text k i = g := by
  simp [observedB, List.mem_range]

theorem findEntry_cons (c : Nat) (e : Nat × Nat × Node) (es : List (Nat × Nat × Node)) :
    findEntry c (e :: es) = if e.1 == c then some e.2 else findEntry c es := by
  cases h : e.1 == c <;> simp [findEntry, List.find?_cons, h]

theorem findEntry_replaceEntry (x c cnt : Nat) (child : Node)
    (es : List (Nat × Nat × Node)) :
    findEntry x (replaceEntry c cnt child es) =
      if x = c then (findEntry c es).map (fun _ => (cnt, child)) else findEntry x es := by
  induction es with
  | nil => by_cases hxc : x = c <;> simp [replaceEntry, findEntry, hxc]
  | cons e es ih =>
    by_cases hec : e.1 = c
    · by_cases hxc : x = c
      · subst hxc
        simp [replaceEntry, hec, findEntry_cons]
      · have hcx : ¬c = x := fun h => hxc h.symm
        have hex : ¬e.1 = x := fun h => hcx (hec ▸ h)
        simp [replaceEntry, hec, findEntry_cons, hxc, hcx, hex]
    · have hecb : (e.1 == c) = false := by simpa using hec
      by_cases hxc : x = c
      · subst hxc
        simp [replaceEntry, hecb, findEntry_cons, hec, ih]
      · simp [replaceEntry, hecb, findEntry_cons, ih, hxc]

theorem findEntry_append (x : Nat) (es fs : List (Nat × Nat × Node)) :
    findEntry x (es ++ fs) = (findEntry x es).or (findEntry x fs) := by
  simp only [findEntry, List.find?_append]
  cases List.find? (fun e => e.1 == x) es <;> simp

theorem countAt_empty (p : List Nat) (c : Nat) : countAt (Node.mk []) p c = 0 := by
  cases p <;> simp [countAt, getLetterCount, getSon, Node.entries, findEntry]

theorem walk_empty_isSome (p : List Nat) :
    (walk (Node.mk []) p).isSome = p.isEmpty := by
  cases p <;> simp [walk, getSon, Node.entries, findEntry]

theorem insertWord_nil (n : Node) : insertWord [] n = n := rfl

theorem insertWord_cons_found (c : Nat) (rest : List Nat) (es : List (Nat × Nat × Node))
    (cnt : Nat) (child : Node) (h : findEntry c es = some (cnt, child)) :
    insertWord (c :: rest) (Node.mk es) =
      Node.mk (replaceEntry c (cnt + 1) (insertWord rest child) es) := by
  simp [insertWord, h]

theorem insertWord_cons_new (c : Nat) (rest : List Nat) (es : List (Nat × Nat × Node))
    (h : findEntry c es = none) :
    insertWord (c :: rest) (Node.mk es) =
      Node.mk (es ++ [(c, 1, insertWord rest (Node.mk []))]) := by
  simp [insertWord, h]

theorem getLetterCount_mk (es : List (Nat × Nat × Node)) (c : Nat) :
    getLetterCount (Node.mk es) c =
      match findEntry c es with
      | some e => e.1
      | none => 0 := rfl

theorem getSon_mk (es : List (Nat × Nat × Node)) (c : Nat) :
    getSon (Node.mk es) c = (findEntry c es).map (fun e => e.2) := rfl

theorem findEntry_nil (c : Nat) : findEntry c [] = none := rfl

theorem countAt_insertWord (p : List Nat) (c : Nat) (w : List Nat) (n : Node) :
    countAt (insertWord w n) p c =
      countAt n p c + (if (p ++ [c]).isPrefixOf w then 1 else 0) := by
  induction p generalizing w n with
  | nil =>
    cases w with
    | nil => simp [insertWord]
    | cons d rest =>
      obtain ⟨es⟩ := n
      have hpre : (([] : List Nat) ++ [c]).isPrefixOf (d :: rest) = (c == d) := by
        simp [List.isPrefixOf_cons₂]
      cases hfe : findEntry d es with
      | some v =>
        obtain ⟨cnt, child⟩ := v
        rw [insertWord_cons_found d rest es cnt child hfe]
        by_cases hcd : c = d
        · subst hcd
          simp [countAt, getLetterCount_mk, findEntry_replaceEntry, hfe, hpre]
        · simp [countAt, getLetterCount_mk, findEntry_replaceEntry, hcd, hpre]
      | none =>
        rw [insertWord_cons_new d rest es hfe]
        by_cases hcd : c = d
        · subst hcd
          simp [countAt, getLetterCount_mk, findEntry_append, hfe, findEntry_cons, hpre]
        · have hdc : ¬d = c := fun h => hcd h.symm
          simp only [countAt, getLetterCount_mk, findEntry_append, findEntry_cons,
            show (d == c) = false by simpa using hdc, hpre,
            show (c == d) = false by simpa using hcd,
            Bool.false_eq_true, if_false, findEntry_nil, Option.or_none, Nat.add_zero]
  | cons a p ih =>
    cases w with
    | nil => simp [insertWord]
    | cons d rest =>
      obtain ⟨es⟩ := n
      have hw : ((a :: p) ++ [c]).isPrefixOf (d :: rest) =
          ((a == d) && (p ++ [c]).isPrefixOf rest) := by
        simp [List.isPrefixOf_cons₂]
      cases hfe : findEntry d es with
      | some v =>
        obtain ⟨cnt, child⟩ := v
        rw [insertWord_cons_found d rest es cnt child hfe]
        by_cases had : a = d
        · subst had
          simp [countAt, getSon_mk, findEntry_replaceEntry, hfe, hw, ih]
        · simp only [countAt, getSon_mk, findEntry_replaceEntry, had, if_false, hw,
            show (a == d) = false by simpa using had, Bool.false_and,
            Bool.false_eq_true, if_false, Nat.add_zero]
      | none =>
        rw [insertWord_cons_new d rest es hfe]
        by_cases had : a = d
        · subst had
          simp [countAt, getSon_mk, findEntry_append, hfe, findEntry_cons, hw, ih,
            countAt_empty]
        · have hda : ¬d = a := fun h => had h.symm
          simp only [countAt, getSon_mk, findEntry_append, findEntry_cons,
            show (d == a) = false by simpa using hda, hw,
            show (a == d) = false by simpa using had, Bool.false_and,
            Bool.false_eq_true, if_false, Nat.add_zero, findEntry_nil, Option.or_none]

theorem walk_insertWord_isSome (p w : List Nat) (n : Node) :
    (walk (insertWord w n) p).isSome = ((walk n p).isSome || p.isPrefixOf w) := by
  induction p generalizing w n with
  | nil => simp [walk]
  | cons a p ih =>
    cases w with
    | nil => simp [insertWord]
    | cons d rest =>
      obtain ⟨es⟩ := n
      have hw : (a :: p).isPrefixOf (d :: rest) = ((a == d) && p.isPrefixOf rest) := by
        simp [List.isPrefixOf_cons₂]
      cases hfe : findEntry d es with
      | some v =>
        obtain ⟨cnt, child⟩ := v
        rw [insertWord_cons_found d rest es cnt child hfe]
        by_cases had : a = d
        · subst had
          simp [walk, getSon_mk, findEntry_replaceEntry, hfe, hw, ih]
        · simp only [walk, getSon_mk, findEntry_replaceEntry, had, if_false, hw,
            show (a == d) = false by simpa using had, Bool.false_and, Bool.or_false]
      | none =>
        rw [insertWord_cons_new d rest es hfe]
        by_cases had : a = d
        · subst had
          have hnew : getSon (Node.mk (es ++ [(a, 1, insertWord rest (Node.mk []))])) a =
              some (insertWord rest (Node.mk [])) := by
            simp [getSon_mk, findEntry_append, hfe, findEntry_cons]
          have hstep : walk (Node.mk (es ++ [(a, 1, insertWord rest (Node.mk []))])) (a :: p)
              = walk (insertWord rest (Node.mk [])) p := by
            simp [walk, hnew]
          have hold : walk (Node.mk es) (a :: p) = none := by
            simp [walk, getSon_mk, hfe]
          rw [hstep, ih, walk_empty_isSome, hw, hold]
          cases p <;> simp
        · have hda : ¬d = a := fun h => had h.symm
          simp only [walk, getSon_mk, findEntry_append, findEntry_cons,
            show (d == a) = false by simpa using hda, hw,
            show (a == d) = false by simpa using had, Bool.false_and, Bool.or_false,
            Bool.false_eq_true, if_false, findEntry_nil, Option.or_none]

theorem countAt_buildFrom (ws : List (List Nat)) (nd : Node) (p : List Nat) (c : Nat) :
    countAt (buildFrom ws nd) p c =
      countAt nd p c + ws.countP (fun w => (p ++ [c]).isPrefixOf w) := by
  induction ws generalizing nd with
  | nil => simp [buildFrom]
  | cons w ws ih =>
    have hstep : buildFrom (w :: ws) nd = buildFrom ws (insertWord w nd) := rfl
    rw [hstep, ih, countAt_insertWord, List.countP_cons]
    omega

theorem walk_buildFrom_isSome (ws : List (List Nat)) (nd : Node) (p : List Nat) :
    (walk (buildFrom ws nd) p).isSome =
      ((walk nd p).isSome || ws.any (fun w => p.isPrefixOf w)) := by
  induction ws generalizing nd with
  | nil => simp [buildFrom]
  | cons w ws ih =>
    have hstep : buildFrom (w :: ws) nd = buildFrom ws (insertWord w nd) := rfl
    rw [hstep, ih, walk_insertWord_isSome, List.any_cons, Bool.or_assoc]

theorem treeBuild_eq_buildFrom (text : List Nat) (k : Nat) :
    treeBuild text k = buildFrom (windows text (k + 1)) (Node.mk []) := by
  simp [treeBuild, buildFrom, windows, List.foldl_map]

theorem countAt_treeBuild (text : List Nat) (k : Nat) (p : List Nat) (c : Nat) :
    countAt (treeBuild text k) p c =
      (windows text (k + 1)).countP (fun w => (p ++ [c]).isPrefixOf w) := by
  rw [treeBuild_eq_buildFrom, countAt_buildFrom, countAt_empty, Nat.zero_add]

theorem walk_treeBuild_isSome (text : List Nat) (k : Nat) (p : List Nat) :
    (walk (treeBuild text k) p).isSome =
      (p.isEmpty || (windows text (k + 1)).any (fun w => p.isPrefixOf w)) := by
  rw [treeBuild_eq_buildFrom, walk_buildFrom_isSome, walk_empty_isSome]

theorem walk_append (n : Node) (p q : List Nat) :
    walk n (p ++ q) = (walk n p).bind (fun m => walk m q) := by
  induction p generalizing n with
  | nil => simp [walk]
  | cons a p ih =>
    simp only [List.cons_append, walk]
    cases getSon n a with
    | none => simp
    | some m => simp [ih]

theorem countAt_eq_walk (n : Node) (p : List Nat) (c : Nat) :
    countAt n p c = ((walk n p).map (fun m => getLetterCount m c)).getD 0 := by
  induction p generalizing n with
  | nil => simp [countAt, walk]
  | cons a p ih =>
    simp only [countAt, walk]
    cases getSon n a with
    | none => simp
    | some m => simp [ih]

theorem windows_countP (text : List Nat) (len : Nat) (p : List Nat → Bool) :
    (windows text len).countP p =
      (List.range text.length).countP (fun i => p (pyWindow text len i)) := by
  simp only [windows, List.countP_map]
  rfl

theorem windows_any (text : List Nat) (len : Nat) (p : List Nat → Bool) :
    (windows text len).any p =
      (List.range text.length).any (fun i => p (pyWindow text len i)) := by
  simp only [windows]
  generalize List.range text.length = l
  induction l with
  | nil => simp
  | cons i is ih => simp [ih]

theorem prefix_window_iff (text : List Nat) (k i : Nat) (g : List Nat)
    (hi : i < text.length) (hk : k < text.length) (hg : g.length = k) :
    g.isPrefixOf (pyWindow text (k + 1) i) = (cyclWindow text k i == g) := by
  rw [pyWindow_eq_cyclWindow text (k + 1) i hi (by omega), cyclWindow_succ,
    Bool.eq_iff_iff]
  simp only [ List.isPrefixOf_iff_prefix, beq_iff_eq]
  constructor
  · intro hpre
    have hw : cyclWindow text k i <+: cyclWindow text k i ++ [cyclAt text (i + k)] :=
      List.prefix_append _ _
    have hgw : g <+: cyclWindow text k i :=
      List.prefix_of_prefix_length_le hpre hw (by rw [hg, cyclWindow_length])
    exact (List.eq_of_prefix_of_length_eq hgw (by rw [hg, cyclWindow_length])).symm
  · intro he
    rw [← he]
    exact List.prefix_append _ _

theorem prefix_window_follow_iff (text : List Nat) (k i : Nat) (g : List Nat) (s : Nat)
    (hi : i < text.length) (hk : k < text.length) (hg : g.length = k) :
    (g ++ [s]).isPrefixOf (pyWindow text (k + 1) i) =
      (cyclWindow text k i == g && cyclAt text (i + k) == s) := by
  rw [pyWindow_eq_cyclWindow text (k + 1) i hi (by omega), cyclWindow_succ,
    Bool.eq_iff_iff]
  simp only [ List.isPrefixOf_iff_prefix, Bool.and_eq_true, beq_iff_eq]
  constructor
  · intro hpre
    have hlen : (g ++ [s]).length = (cyclWindow text k i ++ [cyclAt text (i + k)]).length := by
      simp [hg, cyclWindow_length]
    have heq := List.eq_of_prefix_of_length_eq hpre hlen
    obtain ⟨h1, h2⟩ := List.append_inj heq (by simp [hg, cyclWindow_length])
    refine ⟨h1.symm, ?_⟩
    have := h2.symm
    simpa using this
  · rintro ⟨h1, h2⟩
    rw [h1, h2]

theorem walk_g_isSome_of_observed (text : List Nat) (k : Nat) (g : List Nat)
    (hk : k < text.length) (hg : g.length = k) (hobs : observedB text k g = true) :
    (walk (treeBuild text k) g).isSome = true := by
  obtain ⟨i, hi, hwin⟩ := (observedB_iff text k g).mp hobs
  rw [walk_treeBuild_isSome, Bool.or_eq_true]
  right
  rw [windows_any]
  apply List.any_eq_true.mpr
  refine ⟨i, List.mem_range.mpr hi, ?_⟩
  rw [prefix_window_iff text k i g hi hk hg, hwin]
  simp

theorem walk_dropLast_isSome_of_observed (text : List Nat) (k : Nat) (g : List Nat)
    (hk : k < text.length) (hg : g.length = k) (hobs : observedB text k g = true) :
    (walk (treeBuild text k) g.dropLast).isSome = true := by
  obtain ⟨i, hi, hwin⟩ := (observedB_iff text k g).mp hobs
  rw [walk_treeBuild_isSome]
  cases hdl : g.dropLast with
  | nil => simp
  | cons a t =>
    rw [Bool.or_eq_true]
    right
    rw [windows_any]
    apply List.any_eq_true.mpr
    refine ⟨i, List.mem_range.mpr hi, ?_⟩
    rw [← hdl]
    apply List.isPrefixOf_iff_prefix.mpr
    have hpg : g <+: pyWindow text (k + 1) i := by
      have := prefix_window_iff text k i g hi hk hg
      rw [hwin] at this
      simp only [beq_self_eq_true] at this
      exact List.isPrefixOf_iff_prefix.mp this
    exact ( List.dropLast_prefix g).trans hpg

theorem observed_of_walk_isSome (text : List Nat) (k : Nat) (g : List Nat)
    (hk : k < text.length) (hg : g.length = k) (hgne : g ≠ [])
    (hw : (walk (treeBuild text k) g).isSome = true) :
    observedB text k g = true := by
  rw [walk_treeBuild_isSome, Bool.or_eq_true] at hw
  rcases hw with hemp | hany
  · cases g with
    | nil => exact absurd rfl hgne
    | cons a t => simp at hemp
  · rw [windows_any] at hany
    obtain ⟨i, hi, hpre⟩ := List.any_eq_true.mp hany
    rw [observedB_iff]
    refine ⟨i, List.mem_range.mp hi, ?_⟩
    have := prefix_window_iff text k i g (List.mem_range.mp hi) hk hg
    rw [hpre] at this
    exact beq_iff_eq.mp this.symm

theorem treeKFreq_eq (text : List Nat) (k : Nat) (g : List Nat)
    (hk : k < text.length) (hg : g.length = k) (hk1 : 1 ≤ k)
    (hobs : observedB text k g = true) :
    treeKFreq (treeBuild text k) g = some (kgramFreq text k g) := by
  have hgne : g ≠ [] := by
    intro h
    rw [h] at hg
    simp at hg
    omega
  have hw := walk_dropLast_isSome_of_observed text k g hk hg hobs
  obtain ⟨m, hm⟩ := Option.isSome_iff_exists.mp hw
  rw [treeKFreq, List.getLast?_eq_getLast g hgne, hm]
  simp only [Option.map_some', Option.some.injEq]
  have h1 : getLetterCount m (g.getLast hgne) =
      countAt (treeBuild text k) g.dropLast (g.getLast hgne) := by
    rw [countAt_eq_walk, hm]
    simp
  rw [h1, countAt_treeBuild]
  simp only [List.dropLast_append_getLast hgne]
  rw [windows_countP, kgramFreq]
  apply List.countP_congr
  intro i hi
  rw [prefix_window_iff text k i g (List.mem_range.mp hi) hk hg]

theorem treeKFollowFreq_eq (text : List Nat) (k : Nat) (g : List Nat) (s : Nat)
    (hk : k < text.length) (hg : g.length = k)
    (hobs : observedB text k g = true) :
    treeKFollowFreq (treeBuild text k) g s = some (kgramFollowFreq text k g s) := by
  have hw := walk_g_isSome_of_observed text k g hk hg hobs
  obtain ⟨m, hm⟩ := Option.isSome_iff_exists.mp hw
  rw [treeKFollowFreq, hm]
  simp only [Option.map_some', Option.some.injEq]
  have h1 : getLetterCount m s = countAt (treeBuild text k) g s := by
    rw [countAt_eq_walk, hm]
    simp
  rw [h1, countAt_treeBuild, windows_countP, kgramFollowFreq]
  apply List.countP_congr
  intro i hi
  rw [prefix_window_follow_iff text k i g s (List.mem_range.mp hi) hk hg]

theorem treeKFreq_unobserved (text : List Nat) (k : Nat) (g : List Nat)
    (hk : k < text.length) (hg : g.length = k) (hk1 : 1 ≤ k)
    (hobs : observedB text k g = false) :
    treeKFreq (treeBuild text k) g = none ∨ treeKFreq (treeBuild text k) g = some 0 := by
  have hgne : g ≠ [] := by
    intro h
    rw [h] at hg
    simp at hg
    omega
  rw [treeKFreq, List.getLast?_eq_getLast g hgne]
  cases hm : walk (treeBuild text k) g.dropLast with
  | none => exact Or.inl (by simp)
  | some m =>
    right
    simp only [Option.map_some', Option.some.injEq]
    have h1 : getLetterCount m (g.getLast hgne) =
        countAt (treeBuild text k) g.dropLast (g.getLast hgne) := by
      rw [countAt_eq_walk, hm]
      simp
    rw [h1, countAt_treeBuild]
    simp only [List.dropLast_append_getLast hgne]
    rw [windows_countP]
    apply List.countP_eq_zero.mpr
    intro i hi
    rw [prefix_window_iff text k i g (List.mem_range.mp hi) hk hg]
    intro hbeq
    have hob : observedB text k g = true :=
      (observedB_iff text k g).mpr ⟨i, List.mem_range.mp hi, beq_iff_eq.mp hbeq⟩
    rw [hobs] at hob
    exact absurd hob (by simp)

theorem findVal_nil {α : Type} (g : List Nat) :
    findVal ([] : List (List Nat × α)) g = none := rfl

theorem findVal_cons {α : Type} (e : List Nat × α) (m : List (List Nat × α)) (g : List Nat) :
    findVal (e :: m) g = if e.1 == g then some e.2 else findVal m g := by
  cases h : e.1 == g <;> simp [findVal, List.find?_cons, h]

theorem findVal_append {α : Type} (m1 m2 : List (List Nat × α)) (g : List Nat) :
    findVal (m1 ++ m2) g = (findVal m1 g).or (findVal m2 g) := by
  simp only [findVal, List.find?_append]
  cases List.find? (fun e => e.1 == g) m1 <;> simp

theorem findVal_replaceVal {α : Type} (m : List (List Nat × α)) (x g : List Nat) (v : α) :
    findVal (replaceVal m g v) x =
      if x = g then (findVal m g).map (fun _ => v) else findVal m x := by
  induction m with
  | nil => by_cases hxg : x = g <;> simp [replaceVal, findVal, hxg]
  | cons e m ih =>
    by_cases heg : e.1 = g
    · by_cases hxg : x = g
      · subst hxg
        simp [replaceVal, heg, findVal_cons]
      · have hgx : ¬g = x := fun h2 => hxg h2.symm
        have hex : ¬e.1 = x := fun h2 => hgx (heg ▸ h2)
        simp [replaceVal, heg, findVal_cons, hxg, hgx, hex]
    · have hegb : (e.1 == g) = false := by simpa using heg
      by_cases hxg : x = g
      · subst hxg
        simp [replaceVal, hegb, findVal_cons, heg, ih]
      · simp [replaceVal, hegb, findVal_cons, ih, hxg]

theorem replaceVal_append_fresh {α : Type} (m : List (List Nat × α)) (g : List Nat) (a v : α)
    (h : findVal m g = none) :
    replaceVal (m ++ [(g, a)]) g v = m ++ [(g, v)] := by
  induction m with
  | nil => simp [replaceVal]
  | cons e m ih =>
    rw [findVal_cons] at h
    by_cases heg : e.1 = g
    · simp [heg] at h
    · have hegb : (e.1 == g) = false := by simpa using heg
      simp only [List.cons_append, replaceVal, hegb, Bool.false_eq_true, if_false,
        List.cons.injEq, true_and]
      exact ih (by simpa [hegb] using h)

theorem TablesInv_congr (F F2 : List Nat → Nat) (G G2 : List Nat → Nat → Nat) (t : Tables)
    (hF : ∀ g, F g = F2 g) (hG : ∀ g c, G g c = G2 g c) (h : TablesInv F G t) :
    TablesInv F2 G2 t := by
  intro g
  obtain ⟨h1, h2⟩ := h g
  constructor
  · rw [← hF g]
    exact h1
  · cases hfl : findVal t.kGramLetter g with
    | none =>
      simp only [hfl] at h2
      simp only [hfl]
      exact ⟨hF g ▸ h2.1, fun c => hG g c ▸ h2.2 c⟩
    | some arr =>
      simp only [hfl] at h2
      simp only [hfl]
      exact ⟨h2.1, fun c => hG g c ▸ h2.2 c⟩

theorem counts_update_inv (m : List (List Nat × Nat)) (F : List Nat → Nat) (gi : List Nat)
    (h : ∀ g, findVal m g = if F g = 0 then none else some (F g)) :
    ∀ g, findVal (match findVal m gi with
          | some v => replaceVal m gi (v + 1)
          | none => m ++ [(gi, 1)]) g =
      if F g + (if gi == g then 1 else 0) = 0 then none
      else some (F g + (if gi == g then 1 else 0)) := by
  intro g
  by_cases hF0 : F gi = 0
  · have hnone : findVal m gi = none := by rw [h gi, if_pos hF0]
    simp only [hnone]
    rw [findVal_append]
    by_cases hgg : gi = g
    · subst hgg
      rw [hnone, findVal_cons]
      simp [hF0]
    · have hggb : (gi == g) = false := by simpa using hgg
      simp [findVal_cons, findVal_nil, hggb, h g]
  · have hsome : findVal m gi = some (F gi) := by rw [h gi, if_neg hF0]
    simp only [hsome]
    rw [findVal_replaceVal]
    by_cases hgg2 : g = gi
    · subst hgg2
      simp [hsome, hF0]
    · have hggb : (gi == g) = false := by simpa using fun h2 => hgg2 h2.symm
      simp [hgg2, hggb, h g]

theorem tablesStep_some (text : List Nat) (k : Nat) (t : Tables) (i : Nat)
    (F : List Nat → Nat) (G : List Nat → Nat → Nat) (h : TablesInv F G t)
    (hc : text.getD ((i + k) % text.length) 0 < 128) :
    ∃ t2, tablesStep text k t i = some t2 ∧
      TablesInv
        (fun g => F g + if pyWindow text k i == g then 1 else 0)
        (fun g c => G g c +
          if pyWindow text k i == g && text.getD ((i + k) % text.length) 0 == c
          then 1 else 0)
        t2 := by
  set ci := text.getD ((i + k) % text.length) 0 with hci
  cases hfl : findVal t.kGramLetter (pyWindow text k i) with
  | some arr0 =>
    have hlen : arr0.length = 128 := by
      have h2 := (h (pyWindow text k i)).2
      simp only [hfl] at h2
      exact h2.1
    have hGarr : ∀ c, arr0.getD c 0 = G (pyWindow text k i) c := by
      have h2 := (h (pyWindow text k i)).2
      simp only [hfl] at h2
      exact h2.2
    refine ⟨⟨(match findVal t.kGramCount (pyWindow text k i) with
              | some v => replaceVal t.kGramCount (pyWindow text k i) (v + 1)
              | none => t.kGramCount ++ [(pyWindow text k i, 1)]),
             replaceVal t.kGramLetter (pyWindow text k i)
               (arr0.set ci (arr0.getD ci 0 + 1))⟩, ?_, ?_⟩
    · simp only [tablesStep, hfl, Option.getD_some, ← hci]
      rw [hlen, if_pos hc]
    · intro g
      constructor
      · exact counts_update_inv t.kGramCount F (pyWindow text k i)
          (fun g2 => (h g2).1) g
      · simp only [findVal_replaceVal]
        by_cases hgg : g = pyWindow text k i
        · subst hgg
          simp only [if_pos rfl, hfl, Option.map_some']
          refine ⟨by simp [hlen], ?_⟩
          intro c
          by_cases hcc : ci = c
          · subst hcc
            rw [List.getD_eq_getElem?_getD,
              List.getElem?_set_self (by rw [hlen]; exact hc)]
            simp only [Option.getD_some, hGarr]
            simp
          · rw [List.getD_eq_getElem?_getD, List.getElem?_set_ne hcc,
              ← List.getD_eq_getElem?_getD, hGarr]
            have hccb : (ci == c) = false := by simpa using hcc
            simp [hccb]
        · simp only [if_neg hgg]
          have h2 := (h g).2
          have hind : (pyWindow text k i == g) = false := by
            simpa using fun h3 => hgg h3.symm
          cases hfl2 : findVal t.kGramLetter g with
          | none =>
            simp only [hfl2] at h2
            refine ⟨?_, ?_⟩
            · simp only [hind, Bool.false_eq_true, if_false, Nat.add_zero]
              exact h2.1
            · intro c
              simp only [hind, Bool.false_and, Bool.false_eq_true, if_false,
                Nat.add_zero]
              exact h2.2 c
          | some arr =>
            simp only [hfl2] at h2
            refine ⟨h2.1, ?_⟩
            intro c
            simp only [hind, Bool.false_and, Bool.false_eq_true, if_false,
              Nat.add_zero]
            exact h2.2 c
  | none =>
    have hFG0 : F (pyWindow text k i) = 0 ∧ ∀ c, G (pyWindow text k i) c = 0 := by
      have h2 := (h (pyWindow text k i)).2
      simp only [hfl] at h2
      exact h2
    have hfind : findVal (t.kGramLetter ++ [(pyWindow text k i, List.replicate 128 0)])
        (pyWindow text k i) = some (List.replicate 128 0) := by
      rw [findVal_append, hfl, findVal_cons]
      simp
    have hrepD : ∀ c, (List.replicate 128 (0 : Nat)).getD c 0 = 0 := by
      intro c
      rw [List.getD_eq_getElem?_getD, List.getElem?_replicate]
      by_cases hcb : c < 128 <;> simp [hcb]
    refine ⟨⟨(match findVal t.kGramCount (pyWindow text k i) with
              | some v => replaceVal t.kGramCount (pyWindow text k i) (v + 1)
              | none => t.kGramCount ++ [(pyWindow text k i, 1)]),
             t.kGramLetter ++ [(pyWindow text k i,
               (List.replicate 128 0).set ci ((List.replicate 128 0).getD ci 0 + 1))]⟩,
        ?_, ?_⟩
    · simp only [tablesStep, hfl, hfind, Option.getD_some, List.length_replicate, ← hci]
      rw [if_pos hc, replaceVal_append_fresh t.kGramLetter (pyWindow text k i) _ _ hfl]
    · intro g
      constructor
      · exact counts_update_inv t.kGramCount F (pyWindow text k i)
          (fun g2 => (h g2).1) g
      · rw [findVal_append, findVal_cons]
        by_cases hgg : pyWindow text k i = g
        · have hfl2 : findVal t.kGramLetter g = none := hgg ▸ hfl
          simp only [hfl2, Option.none_or, show (pyWindow text k i == g) = true by
            simpa using hgg, if_true]
          refine ⟨by simp, ?_⟩
          intro c
          have hG0 : G g c = 0 := hgg ▸ hFG0.2 c
          have hgb : (pyWindow text k i == g) = true := by simpa using hgg
          by_cases hcc : ci = c
          · subst hcc
            rw [List.getD_eq_getElem?_getD,
              List.getElem?_set_self (by simpa using hc)]
            simp only [Option.getD_some, hrepD, hG0, hgb, Bool.true_and]
            simp
          · rw [List.getD_eq_getElem?_getD, List.getElem?_set_ne hcc,
              ← List.getD_eq_getElem?_getD, hrepD, hG0]
            have hccb : (ci == c) = false := by simpa using hcc
            simp [hccb]
        · have hggb : (pyWindow text k i == g) = false := by simpa using hgg
          simp only [hggb, Bool.false_eq_true, if_false, Option.or_none]
          have h2 := (h g).2
          cases hfl2 : findVal t.kGramLetter g with
          | none =>
            simp only [hfl2] at h2
            refine ⟨?_, ?_⟩
            · simp only [hggb, Bool.false_eq_true, if_false, Nat.add_zero]
              exact h2.1
            · intro c
              simp only [hggb, Bool.false_and, Bool.false_eq_true, if_false,
                Nat.add_zero]
              exact h2.2 c
          | some arr =>
            simp only [hfl2] at h2
            refine ⟨h2.1, ?_⟩
            intro c
            simp only [hggb, Bool.false_and, Bool.false_eq_true, if_false,
              Nat.add_zero]
            exact h2.2 c

theorem tablesStep_none (text : List Nat) (k : Nat) (t : Tables) (i : Nat)
    (F : List Nat → Nat) (G : List Nat → Nat → Nat) (h : TablesInv F G t)
    (hc : ¬text.getD ((i + k) % text.length) 0 < 128) :
    tablesStep text k t i = none := by
  cases hfl : findVal t.kGramLetter (pyWindow text k i) with
  | some arr0 =>
    have hlen : arr0.length = 128 := by
      have h2 := (h (pyWindow text k i)).2
      simp only [hfl] at h2
      exact h2.1
    simp only [tablesStep, hfl, Option.getD_some]
    rw [hlen, if_neg hc]
  | none =>
    have hfind : findVal (t.kGramLetter ++ [(pyWindow text k i, List.replicate 128 0)])
        (pyWindow text k i) = some (List.replicate 128 0) := by
      rw [findVal_append, hfl, findVal_cons]
      simp
    simp only [tablesStep, hfl, hfind, Option.getD_some, List.length_replicate]
    rw [if_neg hc]

theorem tablesStep_some_char (text : List Nat) (k : Nat) (t t2 : Tables) (i : Nat)
    (F : List Nat → Nat) (G : List Nat → Nat → Nat) (h : TablesInv F G t)
    (hstep : tablesStep text k t i = some t2) :
    text.getD ((i + k) % text.length) 0 < 128 := by
  by_contra hc
  rw [tablesStep_none text k t i F G h hc] at hstep
  exact absurd hstep (by simp)

theorem tablesBuildAux_some (text : List Nat) (k : Nat) :
    ∀ (is : List Nat) (t : Tables) (F : List Nat → Nat) (G : List Nat → Nat → Nat),
      TablesInv F G t →
      (∀ i ∈ is, text.getD ((i + k) % text.length) 0 < 128) →
      ∃ t2, tablesBuildAux text k is t = some t2 ∧
        TablesInv
          (fun g => F g + is.countP (fun i => pyWindow text k i == g))
          (fun g c => G g c + is.countP (fun i =>
            pyWindow text k i == g && text.getD ((i + k) % text.length) 0 == c))
          t2
  | [], t, F, G, hInv, _ => by
    refine ⟨t, rfl, ?_⟩
    exact TablesInv_congr F _ G _ t (fun g => by simp) (fun g c => by simp) hInv
  | i :: is, t, F, G, hInv, hch => by
    obtain ⟨t1, hstep, hInv1⟩ := tablesStep_some text k t i F G hInv (hch i (by simp))
    obtain ⟨t2, haux, hInv2⟩ := tablesBuildAux_some text k is t1 _ _ hInv1
      (fun j hj => hch j (by simp [hj]))
    refine ⟨t2, ?_, ?_⟩
    · simp only [tablesBuildAux, hstep]
      exact haux
    · refine TablesInv_congr _ _ _ _ t2 ?_ ?_ hInv2
      · intro g
        rw [List.countP_cons]
        omega
      · intro g c
        rw [List.countP_cons]
        omega

theorem tablesBuildAux_some_char (text : List Nat) (k : Nat) :
    ∀ (is : List Nat) (t t2 : Tables) (F : List Nat → Nat) (G : List Nat → Nat → Nat),
      TablesInv F G t → tablesBuildAux text k is t = some t2 →
      ∀ i ∈ is, text.getD ((i + k) % text.length) 0 < 128
  | [], _, _, _, _, _, _ => by
    intro i hi
    simp at hi
  | i :: is, t, t2, F, G, hInv, haux => by
    cases hstep : tablesStep text k t i with
    | none =>
      simp only [tablesBuildAux, hstep] at haux
      exact absurd haux (by simp)
    | some t1 =>
      have hc := tablesStep_some_char text k t t1 i F G hInv hstep
      obtain ⟨t1', hstep', hInv1⟩ := tablesStep_some text k t i F G hInv hc
      have ht1 : t1' = t1 := by
        rw [hstep] at hstep'
        exact (Option.some.inj hstep').symm
      subst ht1
      intro j hj
      rcases List.mem_cons.mp hj with rfl | hj2
      · exact hc
      · exact tablesBuildAux_some_char text k is t1' t2 _ _ hInv1
          (by simpa only [tablesBuildAux, hstep] using haux) j hj2

theorem tablesInv_init : TablesInv (fun _ => 0) (fun _ _ => 0) ⟨[], []⟩ := by
  intro g
  constructor
  · simp [findVal]
  · simp [findVal_nil]

theorem tablesBuild_ascii_of_some (text : List Nat) (k : Nat) (t : Tables)
    (hb : tablesBuild text k = some t) : ∀ c ∈ text, c < 128 := by
  intro c hcmem
  obtain ⟨j, hj, hcj⟩ := List.getElem_of_mem hcmem
  have hn : 0 < text.length := by omega
  have hall := tablesBuildAux_some_char text k (List.range text.length) ⟨[], []⟩ t _ _
    tablesInv_init hb
  have hkn : k % text.length < text.length := Nat.mod_lt _ hn
  have hi0lt : (j + (text.length - k % text.length)) % text.length < text.length :=
    Nat.mod_lt _ hn
  have hmod : ((j + (text.length - k % text.length)) % text.length + k) % text.length
      = j := by
    rw [Nat.add_mod, Nat.mod_mod_of_dvd _ (dvd_refl _), Nat.mod_add_mod]
    have e2 : j + (text.length - k % text.length) + k % text.length
        = j + text.length := by omega
    rw [e2, Nat.add_mod_right, Nat.mod_eq_of_lt hj]
  have hlt := hall ((j + (text.length - k % text.length)) % text.length)
    (List.mem_range.mpr hi0lt)
  rw [hmod, List.getD_eq_getElem?_getD, List.getElem?_eq_getElem hj] at hlt
  simpa [hcj] using hlt

theorem tablesBuild_inv (text : List Nat) (k : Nat) (hk : k ≤ text.length)
    (hascii : ∀ c ∈ text, c < 128) :
    ∃ t, tablesBuild text k = some t ∧
      TablesInv (kgramFreq text k) (kgramFollowFreq text k) t := by
  have hch : ∀ i ∈ List.range text.length,
      text.getD ((i + k) % text.length) 0 < 128 := by
    intro i hi
    have hn : 0 < text.length :=
      Nat.lt_of_le_of_lt (Nat.zero_le i) (List.mem_range.mp hi)
    have hjl : (i + k) % text.length < text.length := Nat.mod_lt _ hn
    rw [List.getD_eq_getElem?_getD, List.getElem?_eq_getElem hjl]
    exact hascii _ (List.getElem_mem hjl)
  obtain ⟨t, haux, hInv⟩ := tablesBuildAux_some text k (List.range text.length)
    ⟨[], []⟩ _ _ tablesInv_init hch
  refine ⟨t, haux, ?_⟩
  refine TablesInv_congr _ _ _ _ t ?_ ?_ hInv
  · intro g
    rw [Nat.zero_add, kgramFreq]
    apply List.countP_congr
    intro i hi
    rw [pyWindow_eq_cyclWindow text k i (List.mem_range.mp hi) hk]
  · intro g c
    rw [Nat.zero_add, kgramFollowFreq]
    apply List.countP_congr
    intro i hi
    rw [pyWindow_eq_cyclWindow text k i (List.mem_range.mp hi) hk]
    exact Iff.rfl

theorem kgramFreq_pos_of_observed (text : List Nat) (k : Nat) (g : List Nat)
    (hobs : observedB text k g = true) : kgramFreq text k g ≠ 0 := by
  obtain ⟨i, hi, hw⟩ := (observedB_iff text k g).mp hobs
  have hpos : 0 < kgramFreq text k g :=
    List.countP_pos_iff.mpr ⟨i, List.mem_range.mpr hi, by simp [hw]⟩
  omega

theorem kgramFreq_zero_of_unobserved (text : List Nat) (k : Nat) (g : List Nat)
    (hobs : observedB text k g = false) : kgramFreq text k g = 0 := by
  apply List.countP_eq_zero.mpr
  intro i hi
  intro hbeq
  have hob : observedB text k g = true :=
    (observedB_iff text k g).mpr ⟨i, List.mem_range.mp hi, beq_iff_eq.mp hbeq⟩
  rw [hobs] at hob
  exact absurd hob (by simp)

theorem tablesKFreq_eq (text : List Nat) (k : Nat) (t : Tables) (g : List Nat)
    (hk : k ≤ text.length) (hb : tablesBuild text k = some t)
    (hobs : observedB text k g = true) :
    tablesKFreq t g = some (kgramFreq text k g) := by
  obtain ⟨t2, hb2, hInv⟩ := tablesBuild_inv text k hk
    (tablesBuild_ascii_of_some text k t hb)
  rw [hb] at hb2
  obtain rfl := Option.some.inj hb2
  rw [tablesKFreq, (hInv g).1, if_neg (kgramFreq_pos_of_observed text k g hobs)]

theorem tablesKFreq_unobserved (text : List Nat) (k : Nat) (t : Tables) (g : List Nat)
    (hk : k ≤ text.length) (hb : tablesBuild text k = some t)
    (hobs : observedB text k g = false) :
    tablesKFreq t g = none := by
  obtain ⟨t2, hb2, hInv⟩ := tablesBuild_inv text k hk
    (tablesBuild_ascii_of_some text k t hb)
  rw [hb] at hb2
  obtain rfl := Option.some.inj hb2
  rw [tablesKFreq, (hInv g).1, if_pos (kgramFreq_zero_of_unobserved text k g hobs)]

theorem observed_of_tablesKFreq_isSome (text : List Nat) (k : Nat) (t : Tables)
    (g : List Nat) (hk : k ≤ text.length) (hb : tablesBuild text k = some t)
    (hfr : (tablesKFreq t g).isSome = true) : observedB text k g = true := by
  cases hobs : observedB text k g with
  | true => rfl
  | false =>
    rw [tablesKFreq_unobserved text k t g hk hb hobs] at hfr
    exact absurd hfr (by simp)

theorem tablesKFollowFreq_eq (text : List Nat) (k : Nat) (t : Tables) (g : List Nat)
    (s : Nat) (hk : k ≤ text.length) (hb : tablesBuild text k = some t)
    (hobs : observedB text k g = true) (hs : s < 128) :
    tablesKFollowFreq t g s = some (kgramFollowFreq text k g s) := by
  obtain ⟨t2, hb2, hInv⟩ := tablesBuild_inv text k hk
    (tablesBuild_ascii_of_some text k t hb)
  rw [hb] at hb2
  obtain rfl := Option.some.inj hb2
  have h2 := (hInv g).2
  cases hfl : findVal t.kGramLetter g with
  | none =>
    simp only [hfl] at h2
    exact absurd h2.1 (kgramFreq_pos_of_observed text k g hobs)
  | some arr =>
    simp only [hfl] at h2
    have hsa : s < arr.length := by rw [h2.1]; exact hs
    rw [tablesKFollowFreq, hfl, Option.some_bind, List.get?_eq_getElem?,
      List.getElem?_eq_getElem hsa]
    have := h2.2 s
    rw [List.getD_eq_getElem?_getD, List.getElem?_eq_getElem hsa] at this
    simpa using this

theorem sum_map_add_distrib (l : List Nat) (a b : Nat → Nat) :
    (l.map (fun s => a s + b s)).sum = (l.map a).sum + (l.map b).sum := by
  induction l with
  | nil => simp
  | cons x l ih =>
    simp only [List.map_cons, List.sum_cons, ih]
    omega

theorem sum_ind_zero (N x : Nat) (h : N ≤ x) :
    ((List.range N).map (fun s => if x == s then (1 : Nat) else 0)).sum = 0 := by
  induction N with
  | zero => simp
  | succ N ih =>
    rw [List.range_succ, List.map_append, List.sum_append, ih (by omega)]
    have hxN : ¬x = N := by omega
    simp [hxN]

theorem sum_ind_one (N x : Nat) (h : x < N) :
    ((List.range N).map (fun s => if x == s then (1 : Nat) else 0)).sum = 1 := by
  induction N with
  | zero => omega
  | succ N ih =>
    rw [List.range_succ, List.map_append, List.sum_append]
    by_cases hx : x < N
    · rw [ih hx]
      have hxN : ¬x = N := by omega
      simp [hxN]
    · have hxN : x = N := by omega
      rw [sum_ind_zero N x (by omega)]
      simp [hxN]

theorem sum_follow_eq_freq (l : List Nat) (p : Nat → Bool) (f : Nat → Nat)
    (hf : ∀ i ∈ l, p i = true → f i < 128) :
    ((List.range 128).map (fun s => l.countP (fun i => p i && f i == s))).sum =
      l.countP p := by
  induction l with
  | nil => simp
  | cons i l ih =>
    have e1 : (fun s : Nat => (i :: l).countP (fun j => p j && f j == s)) =
        fun s : Nat => l.countP (fun j => p j && f j == s) +
          (if p i && f i == s then 1 else 0) := by
      funext s
      rw [List.countP_cons]
    rw [List.countP_cons, e1, sum_map_add_distrib,
      ih (fun j hj hp => hf j (by simp [hj]) hp)]
    cases hp : p i with
    | false =>
      have hz : ∀ s : Nat, (p i && f i == s) = false := by
        intro s
        simp [hp]
      simp [hz]
    | true =>
      have hfi := hf i (by simp) hp
      simp only [Bool.true_and]
      rw [sum_ind_one 128 (f i) hfi]
      simp

/-- C1: for every corpus and order k with 1 ≤ k < corpus length (with the
table model successfully built, i.e. over the program's 128-symbol
alphabet), for every k-gram observed in either model and every alphabet
symbol s, `k_freq` and `k_follow_freq` agree between the Tree Model and
the Table Model. -/
theorem claim_C1_cross_model_equivalence (text : List Nat) (k : Nat) (t : Tables)
    (g : List Nat) (s : Nat)
    (hk1 : 1 ≤ k) (hk2 : k < text.length)
    (hb : tablesBuild text k = some t)
    (hg : g.length = k)
    (hobs : (walk (treeBuild text k) g).isSome = true ∨ (tablesKFreq t g).isSome = true)
    (hs : s < 128) :
    treeKFreq (treeBuild text k) g = tablesKFreq t g ∧
      treeKFollowFreq (treeBuild text k) g s = tablesKFollowFreq t g s := by
  have hgne : g ≠ [] := by
    intro h
    rw [h] at hg
    simp at hg
    omega
  have hobsB : observedB text k g = true := by
    rcases hobs with hw | hf
    · exact observed_of_walk_isSome text k g hk2 hg hgne hw
    · exact observed_of_tablesKFreq_isSome text k t g (le_of_lt hk2) hb hf
  constructor
  · rw [treeKFreq_eq text k g hk2 hg hk1 hobsB,
      tablesKFreq_eq text k t g (le_of_lt hk2) hb hobsB]
  · rw [treeKFollowFreq_eq text k g s hk2 hg hobsB,
      tablesKFollowFreq_eq text k t g s (le_of_lt hk2) hb hobsB hs]

theorem claim_C1_witness :
    tablesBuild [97, 98] 1 = some ⟨[([97], 1), ([98], 1)],
        [([97], (List.replicate 128 0).set 98 1),
         ([98], (List.replicate 128 0).set 97 1)]⟩ ∧
    (treeKFreq (treeBuild [97, 98] 1) [97] =
        tablesKFreq ⟨[([97], 1), ([98], 1)],
          [([97], (List.replicate 128 0).set 98 1),
           ([98], (List.replicate 128 0).set 97 1)]⟩ [97] ∧
      treeKFollowFreq (treeBuild [97, 98] 1) [97] 98 =
        tablesKFollowFreq ⟨[([97], 1), ([98], 1)],
          [([97], (List.replicate 128 0).set 98 1),
           ([98], (List.replicate 128 0).set 97 1)]⟩ [97] 98) :=
  ⟨by decide,
   claim_C1_cross_model_equivalence [97, 98] 1 _ [97] 98 (by decide) (by decide)
     (by decide) (by decide) (Or.inl (by decide)) (by decide)⟩

theorem cyclAt_lt_128 (text : List Nat) (hascii : ∀ c ∈ text, c < 128)
    (hn : 0 < text.length) (j : Nat) : cyclAt text j < 128 := by
  have hjl : j % text.length < text.length := Nat.mod_lt _ hn
  rw [cyclAt, List.getD_eq_getElem?_getD, List.getElem?_eq_getElem hjl]
  exact hascii _ (List.getElem_mem hjl)

/-- C2: for every corpus (over the program's alphabet, so that the table
model builds), order 1 ≤ k < corpus length and observed k-gram g, the sum
of `k_follow_freq(g, s)` over all 128 symbols s equals `k_freq(g)`, in
both the Tree Model and the Table Model. -/
theorem claim_C2_conservation (text : List Nat) (k : Nat) (t : Tables) (g : List Nat)
    (hk1 : 1 ≤ k) (hk2 : k < text.length)
    (hb : tablesBuild text k = some t) (hg : g.length = k)
    (hobs : observedB text k g = true) :
    ∃ m, treeKFreq (treeBuild text k) g = some m ∧ tablesKFreq t g = some m ∧
      ((List.range 128).map
        (fun s => (treeKFollowFreq (treeBuild text k) g s).getD 0)).sum = m ∧
      ((List.range 128).map (fun s => (tablesKFollowFreq t g s).getD 0)).sum = m := by
  have hascii := tablesBuild_ascii_of_some text k t hb
  have hn : 0 < text.length := by omega
  have hsum : ((List.range 128).map (fun s => kgramFollowFreq text k g s)).sum =
      kgramFreq text k g := by
    simp only [kgramFollowFreq, kgramFreq]
    exact sum_follow_eq_freq (List.range text.length)
      (fun i => cyclWindow text k i == g) (fun i => cyclAt text (i + k))
      (fun i _ _ => cyclAt_lt_128 text hascii hn (i + k))
  refine ⟨kgramFreq text k g, treeKFreq_eq text k g hk2 hg hk1 hobs,
    tablesKFreq_eq text k t g (le_of_lt hk2) hb hobs, ?_, ?_⟩
  · rw [List.map_congr_left (fun s _ => by
      rw [treeKFollowFreq_eq text k g s hk2 hg hobs]
      rfl : ∀ s ∈ List.range 128,
        (treeKFollowFreq (treeBuild text k) g s).getD 0 = kgramFollowFreq text k g s)]
    exact hsum
  · rw [List.map_congr_left (fun s hsmem => by
      rw [tablesKFollowFreq_eq text k t g s (le_of_lt hk2) hb hobs
        (List.mem_range.mp hsmem)]
      rfl : ∀ s ∈ List.range 128,
        (tablesKFollowFreq t g s).getD 0 = kgramFollowFreq text k g s)]
    exact hsum

theorem claim_C2_witness :
    ∃ m, treeKFreq (treeBuild [97, 98] 1) [97] = some m ∧
      tablesKFreq ⟨[([97], 1), ([98], 1)],
        [([97], (List.replicate 128 0).set 98 1),
         ([98], (List.replicate 128 0).set 97 1)]⟩ [97] = some m ∧
      ((List.range 128).map
        (fun s => (treeKFollowFreq (treeBuild [97, 98] 1) [97] s).getD 0)).sum = m ∧
      ((List.range 128).map (fun s => (tablesKFollowFreq ⟨[([97], 1), ([98], 1)],
        [([97], (List.replicate 128 0).set 98 1),
         ([98], (List.replicate 128 0).set 97 1)]⟩ [97] s).getD 0)).sum = m :=
  claim_C2_conservation [97, 98] 1 _ [97] (by decide) (by decide) (by decide)
    (by decide) (by decide)

/-- C3 counterexample: for corpus "ab" and k = 1, the 1-gram "c" was never
observed, yet the Tree Model's `k_freq` returns 0 instead of raising a
"k-gram not found" error (for k = 1 the walk over the first k-1 symbols is
empty, and `get_letter_count` silently defaults to 0). -/
theorem claim_C3_counterexample :
    observedB [97, 98] 1 [99] = false ∧
      treeKFreq (treeBuild [97, 98] 1) [99] = some 0 := by
  constructor
  · decide
  · decide

/-- C3 amended: querying `k_freq` with an unobserved k-gram raises a
KeyError in the Table Model; in the Tree Model it raises only when the
walk over the first k-1 symbols hits an absent edge, and otherwise
(in particular always for k = 1) silently returns 0. -/
theorem claim_C3_amended_unseen_kfreq (text : List Nat) (k : Nat) (t : Tables)
    (g : List Nat) (hk1 : 1 ≤ k) (hk2 : k < text.length)
    (hb : tablesBuild text k = some t) (hg : g.length = k)
    (hobs : observedB text k g = false) :
    tablesKFreq t g = none ∧
      (treeKFreq (treeBuild text k) g = none ∨
        treeKFreq (treeBuild text k) g = some 0) :=
  ⟨tablesKFreq_unobserved text k t g (le_of_lt hk2) hb hobs,
   treeKFreq_unobserved text k g hk2 hg hk1 hobs⟩

theorem claim_C3_amended_witness :
    tablesKFreq ⟨[([97], 1), ([98], 1)],
        [([97], (List.replicate 128 0).set 98 1),
         ([98], (List.replicate 128 0).set 97 1)]⟩ [99] = none ∧
      (treeKFreq (treeBuild [97, 98] 1) [99] = none ∨
        treeKFreq (treeBuild [97, 98] 1) [99] = some 0) :=
  claim_C3_amended_unseen_kfreq [97, 98] 1 _ [99] (by decide) (by decide) (by decide)
    (by decide) (by decide)

/-- C8: for every observed k-gram g and every alphabet symbol s that never
immediately followed g in the corpus, `k_follow_freq(g, s)` succeeds and
returns 0 in both the Tree Model and the Table Model. -/
theorem claim_C8_follow_freq_zero (text : List Nat) (k : Nat) (t : Tables)
    (g : List Nat) (s : Nat)
    (hk1 : 1 ≤ k) (hk2 : k < text.length)
    (hb : tablesBuild text k = some t) (hg : g.length = k)
    (hobs : observedB text k g = true) (hs : s < 128)
    (hnf : kgramFollowFreq text k g s = 0) :
    treeKFollowFreq (treeBuild text k) g s = some 0 ∧
      tablesKFollowFreq t g s = some 0 := by
  constructor
  · rw [treeKFollowFreq_eq text k g s hk2 hg hobs, hnf]
  · rw [tablesKFollowFreq_eq text k t g s (le_of_lt hk2) hb hobs hs, hnf]

theorem claim_C8_witness :
    treeKFollowFreq (treeBuild [97, 98] 1) [97] 99 = some 0 ∧
      tablesKFollowFreq ⟨[([97], 1), ([98], 1)],
        [([97], (List.replicate 128 0).set 98 1),
         ([98], (List.replicate 128 0).set 97 1)]⟩ [97] 99 = some 0 :=
  claim_C8_follow_freq_zero [97, 98] 1 _ [97] 99 (by decide) (by decide) (by decide)
    (by decide) (by decide) (by decide) (by decide)

/-- C10: for every corpus containing a symbol with code point ≥ 128 and
every order k ≥ 1, the Table Model's constructor fails (out-of-range index
into the 128-entry successor array), while the Tree Model's constructor
succeeds on the same corpus (it is total; in particular the whole first
window is present in the built trie). -/
theorem claim_C10_tables_build_fails (text : List Nat) (k c : Nat)
    (hc : c ∈ text) (hc2 : 128 ≤ c) (hk : 1 ≤ k) :
    tablesBuild text k = none ∧
      (walk (treeBuild text k) (pyWindow text (k + 1) 0)).isSome = true := by
  constructor
  · cases hbuild : tablesBuild text k with
    | none => rfl
    | some t =>
      have := tablesBuild_ascii_of_some text k t hbuild c hc
      omega
  · have hn : 0 < text.length := List.length_pos.mpr (List.ne_nil_of_mem hc)
    rw [walk_treeBuild_isSome, Bool.or_eq_true]
    right
    rw [windows_any]
    apply List.any_eq_true.mpr
    refine ⟨0, List.mem_range.mpr hn, ?_⟩
    exact List.isPrefixOf_iff_prefix.mpr (List.prefix_refl _)

theorem claim_C10_witness :
    tablesBuild [97, 200] 1 = none ∧
      (walk (treeBuild [97, 200] 1) (pyWindow [97, 200] (1 + 1) 0)).isSome = true :=
  claim_C10_tables_build_fails [97, 200] 1 200 (by decide) (by decide) (by decide)

theorem cyclWindow_step (text : List Nat) (len i : Nat) (hlen : 1 ≤ len) :
    (cyclWindow text len i).drop 1 ++ [cyclAt text (i + len)] =
      cyclWindow text len (i + 1) := by
  have h2 := cyclWindow_shift text len i
  rw [cyclWindow_succ] at h2
  rw [← h2, List.drop_append_of_le_length (by rw [cyclWindow_length]; exact hlen)]

theorem genLoop_length (text : List Nat) (k : Nat) (pick : List Nat → Nat)
    (hpick : ∀ ws : List Nat, ws ≠ [] → pick ws < ws.length)
    (hk1 : 1 ≤ k) (hk2 : k < text.length) :
    ∀ (m : Nat) (state tj : List Nat),
      (∃ i, i < text.length ∧ cyclWindow text k i = state) →
      ∃ out, genLoop (treeBuild text k) pick m state tj = some out ∧
        out.length = tj.length + m := by
  intro m
  induction m with
  | zero =>
    intro state tj _
    exact ⟨tj, rfl, by simp⟩
  | succ m ih =>
    intro state tj hobs
    obtain ⟨i, hi, hwin⟩ := hobs
    have hobsB : observedB text k state = true :=
      (observedB_iff text k state).mpr ⟨i, hi, hwin⟩
    have hlenst : state.length = k := by rw [← hwin, cyclWindow_length]
    have hw := walk_g_isSome_of_observed text k state hk2 hlenst hobsB
    obtain ⟨nd, hnd⟩ := Option.isSome_iff_exists.mp hw
    have hchild : (walk (treeBuild text k) (state ++ [cyclAt text (i + k)])).isSome
        = true := by
      rw [walk_treeBuild_isSome, Bool.or_eq_true]
      right
      rw [windows_any]
      refine List.any_eq_true.mpr ⟨i, List.mem_range.mpr hi, ?_⟩
      rw [pyWindow_eq_cyclWindow text (k + 1) i hi (by omega), cyclWindow_succ, hwin]
      exact List.isPrefixOf_iff_prefix.mpr (List.prefix_refl _)
    rw [walk_append, hnd, Option.some_bind] at hchild
    have hne : lettersCountList nd ≠ [] := by
      intro hempty
      obtain ⟨es⟩ := nd
      cases es with
      | nil => simp [walk, getSon, Node.entries, findEntry] at hchild
      | cons e es2 => simp [lettersCountList, Node.entries] at hempty
    have hplen : pick ((lettersCountList nd).map (fun e => e.2)) <
        (lettersCountList nd).length := by
      have := hpick ((lettersCountList nd).map (fun e => e.2)) (by simpa using hne)
      simpa using this
    obtain ⟨e, he⟩ : ∃ e, (lettersCountList nd).get?
        (pick ((lettersCountList nd).map (fun e => e.2))) = some e := by
      rw [List.get?_eq_getElem?]
      exact ⟨_, List.getElem?_eq_getElem hplen⟩
    have hnext : treeNextChar (treeBuild text k) pick state = some e.1 := by
      rw [treeNextChar, hnd, Option.some_bind]
      simp only [he, Option.map_some']
    have hmem : e ∈ lettersCountList nd := List.get?_mem he
    obtain ⟨ent, hent, hent1⟩ : ∃ ent ∈ nd.entries, (ent.1, ent.2.1) = e := by
      simpa [lettersCountList] using hmem
    have hent1a : e.1 = ent.1 := by rw [← hent1]
    have hgs : (getSon nd e.1).isSome = true := by
      simp only [getSon, findEntry, Option.isSome_map']
      exact List.find?_isSome.mpr ⟨ent, hent, by simp [hent1a]⟩
    have hwalknew : (walk (treeBuild text k) (state ++ [e.1])).isSome = true := by
      rw [walk_append, hnd, Option.some_bind]
      obtain ⟨ch, hch⟩ := Option.isSome_iff_exists.mp hgs
      simp [walk, hch]
    rw [walk_treeBuild_isSome, Bool.or_eq_true] at hwalknew
    rcases hwalknew with hemp | hany
    · rw [List.isEmpty_eq_true] at hemp
      exact absurd hemp (by simp)
    · obtain ⟨w, hwmem, hpre⟩ := List.any_eq_true.mp hany
      obtain ⟨i2, hi2mem, rfl⟩ := List.mem_map.mp hwmem
      have hi2 : i2 < text.length := List.mem_range.mp hi2mem
      rw [pyWindow_eq_cyclWindow text (k + 1) i2 hi2 (by omega),
        cyclWindow_succ] at hpre
      have heq : state ++ [e.1] = cyclWindow text k i2 ++ [cyclAt text (i2 + k)] :=
        List.eq_of_prefix_of_length_eq ( List.isPrefixOf_iff_prefix.mp hpre)
          (by simp [hlenst, cyclWindow_length])
      obtain ⟨hst, hc⟩ := List.append_inj heq (by simp [hlenst, cyclWindow_length])
      have hc1 : e.1 = cyclAt text (i2 + k) := by simpa using hc
      have hnew : state.drop 1 ++ [e.1] =
          cyclWindow text k ((i2 + 1) % text.length) := by
        rw [cyclWindow_mod, ← cyclWindow_step text k i2 hk1, hst, hc1]
      have hn : 0 < text.length := by omega
      obtain ⟨out, hloop, hlen⟩ := ih (state.drop 1 ++ [e.1]) (tj ++ [e.1])
        ⟨(i2 + 1) % text.length, Nat.mod_lt _ hn, hnew.symm⟩
      refine ⟨out, ?_, ?_⟩
      · simp only [genLoop, hnext]
        exact hloop
      · rw [hlen]
        simp
        omega

/-- C4 counterexample: with order 0 (violating order ≥ 1) and trajectory
length 0 on corpus "ab", the program performs no validation: both models
are built, the run completes normally and prints the empty trajectory,
instead of detecting the invalid order and terminating with an error. -/
theorem claim_C4_counterexample :
    runMain [97, 98] 0 0 (fun _ => 0) = some [] := by decide

/-- C4 amended: the program performs no parameter validation at all.
Whenever trajectory ≤ order (which covers trajectory < order, order = 0
with trajectory 0, and the empty corpus with trajectory ≤ order), the
models are built unconditionally, the generation loop body never runs,
and the run completes normally printing the first `order` corpus
characters. -/
theorem claim_C4_amended_no_validation (txt : List Nat) (order traj : Nat)
    (pick : List Nat → Nat) (t : Tables)
    (hb : tablesBuild txt order = some t) (h : traj ≤ order) :
    runMain txt order traj pick = some (txt.take order) := by
  simp only [runMain, hb]
  rw [show traj - order = 0 by omega]
  rfl

theorem claim_C4_amended_witness :
    runMain [97, 98] 2 1 (fun _ => 0) = some ([97, 98].take 2) :=
  claim_C4_amended_no_validation [97, 98] 2 1 (fun _ => 0) _ rfl (by decide)

/-- C5 counterexample: corpus "abc", order k = 3 (equal to the corpus
length, which the claim's "corpus length ≥ k" admits), trajectory t = 6:
the generator reaches the unseen state "cab" and crashes, so no
trajectory of length 6 is produced. -/
theorem claim_C5_counterexample :
    runMain [97, 98, 99] 3 6 (fun _ => 0) = none := by decide

/-- C5 amended: for every corpus over the program's 128-symbol alphabet,
order k with 1 ≤ k < corpus length (strictly, not merely ≤), trajectory
length t ≥ k, and any sampler returning an in-range index on every
nonempty weight list, the generation loop succeeds and the trajectory has
length exactly t. -/
theorem claim_C5_amended_trajectory_length (txt : List Nat) (k t : Nat)
    (pick : List Nat → Nat)
    (hpick : ∀ ws : List Nat, ws ≠ [] → pick ws < ws.length)
    (hascii : ∀ c ∈ txt, c < 128)
    (hk1 : 1 ≤ k) (hk2 : k < txt.length) (ht : k ≤ t) :
    ∃ out, runMain txt k t pick = some out ∧ out.length = t := by
  obtain ⟨tb, hb, _⟩ := tablesBuild_inv txt k (le_of_lt hk2) hascii
  have hstate : txt.take k = cyclWindow txt k 0 := take_eq_cyclWindow txt k (le_of_lt hk2)
  obtain ⟨out, hloop, hlen⟩ := genLoop_length txt k pick hpick hk1 hk2 (t - k)
    (txt.take k) (txt.take k) ⟨0, by omega, hstate.symm⟩
  refine ⟨out, ?_, ?_⟩
  · simp only [runMain, hb]
    exact hloop
  · rw [hlen, List.length_take]
    omega

theorem claim_C5_amended_witness :
    ∃ out, runMain [97, 98] 1 3 (fun _ => 0) = some out ∧ out.length = 3 :=
  claim_C5_amended_trajectory_length [97, 98] 1 3 (fun _ => 0)
    (fun ws hws => by cases ws with
      | nil => exact absurd rfl hws
      | cons a l => simp)
    (by decide) (by decide) (by decide) (by decide)

/-- C7: end-to-end example.  For corpus "abababab", order 1 and trajectory
length 6, every reachable state has exactly one successor ("a" → "b" with
count 4, "b" → "a" with count 4), so for every in-contract behaviour of
the sampler the run, seeded with "a", prints exactly "ababab". -/
theorem claim_C7_end_to_end (pick : List Nat → Nat)
    (hpick : ∀ ws : List Nat, ws ≠ [] → pick ws < ws.length) :
    runMain [97, 98, 97, 98, 97, 98, 97, 98] 1 6 pick =
      some [97, 98, 97, 98, 97, 98] := by
  have h4 : pick [4] = 0 := Nat.lt_one_iff.mp (hpick [4] (by simp))
  have e1 : treeNextChar (treeBuild [97, 98, 97, 98, 97, 98, 97, 98] 1) pick [97] =
      some 98 := by
    rw [treeNextChar,
      show walk (treeBuild [97, 98, 97, 98, 97, 98, 97, 98] 1) [97] =
        some (Node.mk [(98, 4, Node.mk [])]) from rfl, Option.some_bind]
    show (([(98, 4)] : List (Nat × Nat)).get? (pick [4])).map (fun e => e.1) = some 98
    rw [h4]
    rfl
  have e2 : treeNextChar (treeBuild [97, 98, 97, 98, 97, 98, 97, 98] 1) pick [98] =
      some 97 := by
    rw [treeNextChar,
      show walk (treeBuild [97, 98, 97, 98, 97, 98, 97, 98] 1) [98] =
        some (Node.mk [(97, 4, Node.mk [])]) from rfl, Option.some_bind]
    show (([(97, 4)] : List (Nat × Nat)).get? (pick [4])).map (fun e => e.1) = some 97
    rw [h4]
    rfl
  have step : ∀ (m : Nat) (st : List Nat) (c : Nat) (tj : List Nat),
      treeNextChar (treeBuild [97, 98, 97, 98, 97, 98, 97, 98] 1) pick st = some c →
      genLoop (treeBuild [97, 98, 97, 98, 97, 98, 97, 98] 1) pick (m + 1) st tj =
        genLoop (treeBuild [97, 98, 97, 98, 97, 98, 97, 98] 1) pick m
          (st.drop 1 ++ [c]) (tj ++ [c]) := by
    intro m st c tj h
    simp only [genLoop, h]
  cases htb : tablesBuild [97, 98, 97, 98, 97, 98, 97, 98] 1 with
  | none =>
    have hs : (tablesBuild [97, 98, 97, 98, 97, 98, 97, 98] 1).isSome = true := by
      decide
    rw [htb] at hs
    exact absurd hs (by simp)
  | some tb =>
    simp only [runMain, htb]
    show genLoop (treeBuild [97, 98, 97, 98, 97, 98, 97, 98] 1) pick (4 + 1)
      [97] [97] = some [97, 98, 97, 98, 97, 98]
    rw [step 4 [97] 98 [97] e1]
    show genLoop (treeBuild [97, 98, 97, 98, 97, 98, 97, 98] 1) pick (3 + 1)
      [98] [97, 98] = some [97, 98, 97, 98, 97, 98]
    rw [step 3 [98] 97 [97, 98] e2]
    show genLoop (treeBuild [97, 98, 97, 98, 97, 98, 97, 98] 1) pick (2 + 1)
      [97] [97, 98, 97] = some [97, 98, 97, 98, 97, 98]
    rw [step 2 [97] 98 [97, 98, 97] e1]
    show genLoop (treeBuild [97, 98, 97, 98, 97, 98, 97, 98] 1) pick (1 + 1)
      [98] [97, 98, 97, 98] = some [97, 98, 97, 98, 97, 98]
    rw [step 1 [98] 97 [97, 98, 97, 98] e2]
    show genLoop (treeBuild [97, 98, 97, 98, 97, 98, 97, 98] 1) pick (0 + 1)
      [97] [97, 98, 97, 98, 97] = some [97, 98, 97, 98, 97, 98]
    rw [step 0 [97] 98 [97, 98, 97, 98, 97] e1]
    rfl

theorem claim_C7_witness :
    runMain [97, 98, 97, 98, 97, 98, 97, 98] 1 6 (fun _ => 0) =
      some [97, 98, 97, 98, 97, 98] :=
  claim_C7_end_to_end (fun _ => 0)
    (fun ws hws => by cases ws with
      | nil => exact absurd rfl hws
      | cons a l => simp)

/-- C6: for corpus "abcde" and order k = 3, the cyclic (k+1)-window
extracted by the model constructors at start index 3 wraps past the end
of the corpus and equals "deab". -/
theorem claim_C6_cyclic_window :
    pyWindow [97, 98, 99, 100, 101] (3 + 1) 3 = [100, 101, 97, 98] := by decide

theorem splitNl_ne_nil (l : List Nat) : splitNl l ≠ [] := by
  induction l with
  | nil => simp [splitNl]
  | cons c rest ih =>
    simp only [splitNl]
    by_cases hc : c = 10
    · simp [hc]
    · simp only [hc, if_false]
      cases h : splitNl rest with
      | nil => simp
      | cons a t => simp

theorem splitNl_cons_nl (rest : List Nat) : splitNl (10 :: rest) = [] :: splitNl rest := by
  simp [splitNl]

theorem splitNl_cons_other (c : Nat) (rest : List Nat) (hc : ¬c = 10) :
    splitNl (c :: rest) =
      match splitNl rest with
      | [] => [[c]]
      | h :: t => (c :: h) :: t := by
  simp [splitNl, hc]

theorem splitNl_append_nl (xs ys : List Nat) :
    splitNl (xs ++ 10 :: ys) = splitNl xs ++ splitNl ys := by
  induction xs with
  | nil =>
    rw [List.nil_append, splitNl_cons_nl]
    rfl
  | cons c xs ih =>
    by_cases hc : c = 10
    · subst hc
      rw [List.cons_append, splitNl_cons_nl, splitNl_cons_nl, ih, List.cons_append]
    · rw [List.cons_append, splitNl_cons_other c _ hc, splitNl_cons_other c _ hc, ih]
      cases h : splitNl xs with
      | nil => exact absurd h (splitNl_ne_nil xs)
      | cons a t => rfl

theorem splitNl_no_nl (l : List Nat) (h : ∀ x ∈ l, x ≠ 10) : splitNl l = [l] := by
  induction l with
  | nil => rfl
  | cons c rest ih =>
    have hc : c ≠ 10 := h c (by simp)
    simp only [splitNl, hc, if_false]
    rw [ih (fun x hx => h x (by simp [hx]))]

theorem splitNl_flatten (lines : List (List Nat)) :
    splitNl ((lines.map (fun l => l ++ [10])).flatten) =
      lines.flatMap splitNl ++ [[]] := by
  induction lines with
  | nil => simp [splitNl]
  | cons l lines ih =>
    simp only [List.map_cons, List.flatten_cons, List.flatMap_cons]
    rw [show (l ++ [10]) ++ ((lines.map (fun l2 => l2 ++ [10])).flatten) =
      l ++ 10 :: ((lines.map (fun l2 => l2 ++ [10])).flatten) by simp]
    rw [splitNl_append_nl, ih, List.append_assoc]

theorem stringifyLines_mem : ∀ (g : List Nat) (nd m : Node) (path : List Nat),
    walk nd g = some m →
    lineFor (path ++ g) (lettersCountList m) ∈ stringifyLines g.length nd path
  | [], nd, m, path, hw => by
    obtain rfl : nd = m := by simpa [walk] using hw
    simp [stringifyLines]
  | a :: g2, nd, m, path, hw => by
    simp only [walk] at hw
    cases hgs : getSon nd a with
    | none =>
      rw [hgs] at hw
      simp at hw
    | some child =>
      rw [hgs, Option.some_bind] at hw
      obtain ⟨ent, hfind⟩ : ∃ ent, nd.entries.find? (fun e => e.1 == a) = some ent := by
        cases hf : nd.entries.find? (fun e => e.1 == a) with
        | none =>
          rw [getSon, findEntry, hf] at hgs
          simp at hgs
        | some ent => exact ⟨ent, rfl⟩
      have hmem := List.mem_of_find?_eq_some hfind
      have henta : ent.1 = a := by simpa using List.find?_some hfind
      have hchild : ent.2.2 = child := by
        rw [getSon, findEntry, hfind] at hgs
        simpa using hgs
      show lineFor (path ++ (a :: g2)) (lettersCountList m) ∈
        stringifyLines (g2.length + 1) nd path
      simp only [stringifyLines]
      apply List.mem_flatMap.mpr
      refine ⟨ent, hmem, ?_⟩
      rw [henta]
      have hrec := stringifyLines_mem g2 ent.2.2 m (path ++ [a])
        (by rw [hchild]; exact hw)
      rw [show path ++ (a :: g2) = (path ++ [a]) ++ g2 by simp]
      exact hrec

theorem lexLe_total2 (a b : List Nat) : lexLe a b = true ∨ lexLe b a = true := by
  induction a generalizing b with
  | nil => exact Or.inl rfl
  | cons x as ih =>
    cases b with
    | nil => exact Or.inr rfl
    | cons y bs =>
      rcases Nat.lt_trichotomy x y with h | h | h
      · left
        simp [lexLe, h]
      · subst h
        rcases ih bs with h2 | h2
        · left
          simp [lexLe, Nat.lt_irrefl, h2]
        · right
          simp [lexLe, Nat.lt_irrefl, h2]
      · right
        simp [lexLe, h]

theorem lexLe_trans2 (a b c : List Nat) (h1 : lexLe a b = true)
    (h2 : lexLe b c = true) : lexLe a c = true := by
  induction a generalizing b c with
  | nil => rfl
  | cons x as ih =>
    cases b with
    | nil => simp [lexLe] at h1
    | cons y bs =>
      cases c with
      | nil => simp [lexLe] at h2
      | cons z cs =>
        by_cases hxy : x < y
        · by_cases hyz : y < z
          · simp [lexLe, Nat.lt_trans hxy hyz]
          · by_cases hzy : z < y
            · simp [lexLe, hyz, hzy] at h2
            · have hyz2 : y = z := by omega
              subst hyz2
              simp [lexLe, hxy]
        · by_cases hyx : y < x
          · simp [lexLe, hxy, hyx] at h1
          · have hxy2 : x = y := by omega
            subst hxy2
            simp only [lexLe, Nat.lt_irrefl, if_false] at h1
            by_cases hxz : x < z
            · simp [lexLe, hxz]
            · by_cases hzx : z < x
              · simp [lexLe, hxz, hzx] at h2
              · have hxz2 : x = z := by omega
                subst hxz2
                simp only [lexLe, Nat.lt_irrefl, if_false] at h2 ⊢
                exact ih bs cs h1 h2

theorem treeToStringLines_mem (k : Nat) (root : Node) (line : List Nat)
    (h10 : ∀ x ∈ line, x ≠ 10) (hline : line ∈ stringifyLines k root []) :
    line ∈ treeToStringLines k root := by
  rw [treeToStringLines, List.mem_insertionSort, treeStringRaw, splitNl_flatten]
  apply List.mem_append_left
  apply List.mem_flatMap.mpr
  refine ⟨line, hline, ?_⟩
  rw [splitNl_no_nl line h10]
  simp

theorem cyclAt_mem (text : List Nat) (hn : 0 < text.length) (j : Nat) :
    cyclAt text j ∈ text := by
  have hjl : j % text.length < text.length := Nat.mod_lt _ hn
  rw [cyclAt, List.getD_eq_getElem?_getD, List.getElem?_eq_getElem hjl]
  exact List.getElem_mem hjl

theorem mem_joinSep (sep : List Nat) (x : Nat) :
    ∀ ls : List (List Nat), x ∈ joinSep sep ls → x ∈ sep ∨ ∃ l ∈ ls, x ∈ l
  | [] => by
    intro h
    simp [joinSep] at h
  | [l] => by
    intro h
    right
    exact ⟨l, by simp, by simpa [joinSep] using h⟩
  | l :: l2 :: ls => by
    intro h
    have hun : joinSep sep (l :: l2 :: ls) = l ++ sep ++ joinSep sep (l2 :: ls) := rfl
    rw [hun] at h
    rcases List.mem_append.mp h with h1 | h2
    · rcases List.mem_append.mp h1 with ha | hb
      · exact Or.inr ⟨l, by simp, ha⟩
      · exact Or.inl hb
    · rcases mem_joinSep sep x (l2 :: ls) h2 with hs | ⟨l3, hl3, hx⟩
      · exact Or.inl hs
      · exact Or.inr ⟨l3, by simp [hl3], hx⟩

theorem natDigits_ne_10 (v : Nat) : ∀ x ∈ natDigits v, x ≠ 10 := by
  intro x hx
  rw [natDigits] at hx
  by_cases hv : v = 0
  · simp [hv] at hx
    omega
  · simp only [hv, if_false, List.mem_reverse, List.mem_map] at hx
    obtain ⟨d, _, hd⟩ := hx
    omega

theorem lineFor_ne_10 (path : List Nat) (lcs : List (Nat × Nat))
    (hp : ∀ x ∈ path, x ≠ 10) (hl : ∀ e ∈ lcs, e.1 ≠ 10) :
    ∀ x ∈ lineFor path lcs, x ≠ 10 := by
  intro x hx
  rw [lineFor] at hx
  rcases List.mem_append.mp hx with h1 | h2
  · rcases List.mem_append.mp h1 with ha | hb
    · exact hp x ha
    · rcases List.mem_cons.mp hb with h | h
      · omega
      · simp at h
        omega
  · rcases mem_joinSep [32] x _ h2 with hs | ⟨item, hitem, hxitem⟩
    · simp at hs
      omega
    · obtain ⟨e, he, rfl⟩ := List.mem_map.mp hitem
      rcases List.mem_append.mp hxitem with h | h
      · rcases List.mem_cons.mp h with h3 | h3
        · exact h3 ▸ hl e he
        · simp at h3
          omega
      · exact natDigits_ne_10 e.2 x h

theorem letters_mem_text (text : List Nat) (k : Nat) (g : List Nat) (m : Node)
    (c v : Nat) (hk2 : k < text.length) (hn : 0 < text.length)
    (hm : walk (treeBuild text k) g = some m)
    (hmem : (c, v) ∈ lettersCountList m) : c ∈ text := by
  obtain ⟨ent, hent, hpair⟩ : ∃ ent ∈ m.entries, (ent.1, ent.2.1) = (c, v) := by
    simpa [lettersCountList] using hmem
  have hc1 : ent.1 = c := by
    have := congrArg Prod.fst hpair
    simpa using this
  have hgs : (getSon m c).isSome = true := by
    simp only [getSon, findEntry, Option.isSome_map']
    exact List.find?_isSome.mpr ⟨ent, hent, by simp [hc1]⟩
  have hwalk : (walk (treeBuild text k) (g ++ [c])).isSome = true := by
    rw [walk_append, hm, Option.some_bind]
    obtain ⟨ch, hch⟩ := Option.isSome_iff_exists.mp hgs
    simp [walk, hch]
  rw [walk_treeBuild_isSome, Bool.or_eq_true] at hwalk
  rcases hwalk with hemp | hany
  · rw [List.isEmpty_eq_true] at hemp
    exact absurd hemp (by simp)
  · obtain ⟨w, hwmem, hpre⟩ := List.any_eq_true.mp hany
    obtain ⟨i2, hi2mem, rfl⟩ := List.mem_map.mp hwmem
    have hi2 := List.mem_range.mp hi2mem
    have hcmem : c ∈ pyWindow text (k + 1) i2 := by
      have hsub := ( List.isPrefixOf_iff_prefix.mp hpre).sublist.subset
      exact hsub (by simp)
    rw [pyWindow_eq_cyclWindow text (k + 1) i2 hi2 (by omega)] at hcmem
    obtain ⟨j, _, hj⟩ := List.mem_map.mp hcmem
    rw [← hj]
    exact cyclAt_mem text hn _

/-- C9 counterexample: for corpus "a\n" (codes [97, 10]) and k = 1, the
1-gram "a" is observed with successor newline (count 1), yet the output of
`to_string` contains no line listing the k-gram "a" with its successor:
the accumulated string is re-split on every newline, so lines containing
corpus newline characters are broken apart. -/
theorem claim_C9_counterexample :
    treeKFollowFreq (treeBuild [97, 10] 1) [97] 10 = some 1 ∧
      lineFor [97] [(10, 1)] ∉ treeToStringLines 1 (treeBuild [97, 10] 1) := by
  constructor
  · decide
  · decide

/-- C9 amended: for a corpus that does not contain the newline symbol
(code 10) and 1 ≤ k < corpus length, the lines of `to_string` are sorted
lexicographically, and for every observed k-gram there is a line listing
the k-gram path followed by each of its successor symbols with its count.
(Repeated calls trivially return identical output, the embedded model
being a pure function.) -/
theorem claim_C9_amended_to_string (text : List Nat) (k : Nat) (g : List Nat)
    (h10 : 10 ∉ text) (hk1 : 1 ≤ k) (hk2 : k < text.length)
    (hg : g.length = k) (hobs : observedB text k g = true) :
    List.Sorted (fun a b => lexLe a b = true)
        (treeToStringLines k (treeBuild text k)) ∧
      ∃ m, walk (treeBuild text k) g = some m ∧
        lineFor g (lettersCountList m) ∈ treeToStringLines k (treeBuild text k) := by
  constructor
  · haveI hT : IsTotal (List Nat) (fun a b => lexLe a b = true) := ⟨lexLe_total2⟩
    haveI hTr : IsTrans (List Nat) (fun a b => lexLe a b = true) := ⟨lexLe_trans2⟩
    exact List.sorted_insertionSort _ _
  · have hw := walk_g_isSome_of_observed text k g hk2 hg hobs
    obtain ⟨m, hm⟩ := Option.isSome_iff_exists.mp hw
    refine ⟨m, hm, ?_⟩
    have hn : 0 < text.length := by omega
    have hgsub : ∀ x ∈ g, x ∈ text := by
      obtain ⟨i, hi, hwin⟩ := (observedB_iff text k g).mp hobs
      rw [← hwin]
      intro x hx
      obtain ⟨j, _, hj⟩ := List.mem_map.mp hx
      rw [← hj]
      exact cyclAt_mem text hn _
    have h10line : ∀ x ∈ lineFor g (lettersCountList m), x ≠ 10 := by
      apply lineFor_ne_10
      · intro x hx heq
        exact h10 (heq ▸ hgsub x hx)
      · intro e he heq
        have hmem : e.1 ∈ text :=
          letters_mem_text text k g m e.1 e.2 hk2 hn hm (by simpa using he)
        exact h10 (heq ▸ hmem)
    have hline := stringifyLines_mem g (treeBuild text k) m [] hm
    rw [List.nil_append, hg] at hline
    exact treeToStringLines_mem k (treeBuild text k) _ h10line hline

theorem claim_C9_amended_witness :
    List.Sorted (fun a b => lexLe a b = true)
        (treeToStringLines 1 (treeBuild [97, 98] 1)) ∧
      ∃ m, walk (treeBuild [97, 98] 1) [97] = some m ∧
        lineFor [97] (lettersCountList m) ∈ treeToStringLines 1 (treeBuild [97, 98] 1) :=
  claim_C9_amended_to_string [97, 98] 1 [97] (by decide) (by decide) (by decide)
    (by decide) (by decide)
